import Mathlib

/-!
# Verification of the ctxsnap core pipeline

A shallow embedding of the ctxsnap snapshot tool (src/main.rs, src/discovery.rs,
src/processing.rs, src/output.rs, src/config.rs) and proofs about it.

Modelling conventions:
* Text is a `List Nat` of Unicode scalar values; raw file data is a `List Nat`
  of bytes (each `< 256`).  A filesystem is one consistent snapshot
  `Path → Option (List Nat)`: `metadata` and the subsequent `read` observe the
  same content, so the separate open/read failure paths of the Rust code
  (which only arise from mid-run races) cannot fire in the model.
* Rust `u64` arithmetic uses `saturating_add` / `saturating_mul`; these are
  modelled exactly as `min (a + b) u64Max` / `min (a * b) u64Max` on `Nat`.
* The two floating-point threshold comparisons (`control/total < 0.02` and
  `control_ratio > 0.01`) are modelled as the exact rational comparisons
  `50 * control < total` and `100 * control > total`.  For the counts that
  occur here (bounded by the bytes read) the `f64` comparison in the source
  agrees with the exact rational one: the candidate ratios are spaced at
  least `1/(100·total)` apart while the `f64` rounding error is smaller by
  many orders of magnitude, and at exact equality both sides round to the
  same double, so the strict comparison is false either way.
* Reason strings ("Binary detected", "Budget exceeded (limit=… MB)", …) are
  modelled as an inductive `Reason`, one constructor per format string, with
  the formatted numeric arguments as payloads; the OS error text interpolated
  into the metadata/open/read messages is not modelled.
* Rust `str::to_lowercase` is modelled as ASCII lowercasing.  All the strings
  the code compares case-insensitively (extension lists, directory names,
  lock-file names, the `.env` prefix family) are ASCII, where the two coincide.
-/

namespace Ctxsnap

/-- Unicode scalar values of a Lean string literal; used to embed the string
constants of the source. -/
def s2n (s : String) : List Nat := s.toList.map Char.toNat

/-- ASCII lowercasing of one code point (see header note on `to_lowercase`). -/
def lowerA (c : Nat) : Nat := if 65 ≤ c ∧ c ≤ 90 then c + 32 else c

/-- ASCII lowercasing of a string. -/
def asciiLower (s : List Nat) : List Nat := s.map lowerA

/-- Largest value of a Rust `u64`. -/
def u64Max : Nat := 2 ^ 64 - 1

/-- Rust `u64::saturating_add`. -/
def satAdd64 (a b : Nat) : Nat := min (a + b) u64Max

/-- Rust `u64::saturating_mul`. -/
def satMul64 (a b : Nat) : Nat := min (a * b) u64Max

/-- The resolved configuration (config.rs, `AppConfig`).  String sets are kept
as lists; the code lowercases them into `HashSet`s, which membership tests on
lists model faithfully. -/
structure AppConfig where
  exclude_ext : List (List Nat)
  exclude_dir : List (List Nat)
  exclude_file : List (List Nat)
  max_file_mb : Nat
  max_total_mb : Nat
  use_gitignore : Bool
  include_lockfiles : Bool
  remove_comments : Bool
  depth : Nat

/-- `AppConfig::default` from config.rs. -/
def defaultConfig : AppConfig where
  exclude_ext :=
    [s2n "exe", s2n "dll", s2n "so", s2n "dylib", s2n "jpg", s2n "jpeg", s2n "png",
     s2n "gif", s2n "svg", s2n "webp", s2n "ico", s2n "zip", s2n "tar", s2n "gz",
     s2n "7z", s2n "rar", s2n "pdf", s2n "db", s2n "sqlite", s2n "sqlite3",
     s2n "pyc", s2n "pem", s2n "key"]
  exclude_dir :=
    [s2n ".git", s2n "node_modules", s2n "target", s2n "dist", s2n "build",
     s2n ".venv", s2n "venv", s2n ".idea", s2n ".vscode"]
  exclude_file :=
    [s2n ".DS_Store", s2n "Thumbs.db", s2n ".gitignore", s2n ".gitattributes"]
  max_file_mb := 10
  max_total_mb := 200
  use_gitignore := true
  include_lockfiles := false
  remove_comments := false
  depth := 50

/-! ## Unicode decoding (the `encoding_rs` calls in processing.rs) -/

/-- Strict UTF-8 decoding: `some` of the scalar values when the bytes are valid
UTF-8 (no overlongs, no surrogates, max U+10FFFF), `none` otherwise.
`encoding_rs::UTF_8.decode` reports `had_errors = false` exactly on valid
input, and only then is its output used by processing.rs, so the replacement
sequence it would produce on malformed input need not be modelled. -/
def utf8SeqLen (b0 : Nat) : Nat :=
  if b0 < 0x80 then 1
  else if b0 < 0xC2 then 0
  else if b0 < 0xE0 then 2
  else if b0 < 0xF0 then 3
  else if b0 < 0xF5 then 4
  else 0

/-- Decode exactly one scalar from a complete sequence (with the standard
continuation-byte ranges that exclude overlongs and surrogates). -/
def utf8DecodeOne : List Nat → Option Nat
  | [b0] => if b0 < 0x80 then some b0 else none
  | [b0, b1] =>
    if 0xC2 ≤ b0 ∧ b0 < 0xE0 ∧ 0x80 ≤ b1 ∧ b1 < 0xC0 then
      some ((b0 - 0xC0) * 64 + (b1 - 0x80))
    else none
  | [b0, b1, b2] =>
    if 0xE0 ≤ b0 ∧ b0 < 0xF0 ∧
        (if b0 = 0xE0 then 0xA0 else 0x80) ≤ b1 ∧
        b1 ≤ (if b0 = 0xED then 0x9F else 0xBF) ∧ 0x80 ≤ b2 ∧ b2 < 0xC0 then
      some ((b0 - 0xE0) * 4096 + (b1 - 0x80) * 64 + (b2 - 0x80))
    else none
  | [b0, b1, b2, b3] =>
    if 0xF0 ≤ b0 ∧ b0 < 0xF5 ∧
        (if b0 = 0xF0 then 0x90 else 0x80) ≤ b1 ∧
        b1 ≤ (if b0 = 0xF4 then 0x8F else 0xBF) ∧ 0x80 ≤ b2 ∧ b2 < 0xC0 ∧
        0x80 ≤ b3 ∧ b3 < 0xC0 then
      some ((b0 - 0xF0) * 262144 + (b1 - 0x80) * 4096 + (b2 - 0x80) * 64 + (b3 - 0x80))
    else none
  | _ => none

/-- The scan over the whole byte stream, with the remaining length as
structural fuel so that the definition evaluates by kernel reduction
(`utf8Decode` always supplies enough fuel). -/
def utf8DecodeGo : Nat → List Nat → Option (List Nat)
  | _, [] => some []
  | 0, _ :: _ => none
  | fuel + 1, b0 :: rest =>
    let n := utf8SeqLen b0
    if n = 0 then none
    else if rest.length + 1 < n then none
    else
      match utf8DecodeOne (b0 :: rest.take (n - 1)) with
      | none => none
      | some cp => (utf8DecodeGo fuel (rest.drop (n - 1))).map (fun t => cp :: t)

def utf8Decode (l : List Nat) : Option (List Nat) := utf8DecodeGo l.length l

/-- The fuel is irrelevant as long as it covers the input length. -/
theorem utf8DecodeGo_fuel :
    ∀ (fuel fuel' : Nat) (l : List Nat), l.length ≤ fuel → l.length ≤ fuel' →
      utf8DecodeGo fuel l = utf8DecodeGo fuel' l := by
  intro fuel
  induction fuel with
  | zero =>
    intro fuel' l hl hl'
    have : l = [] := List.length_eq_zero.mp (Nat.le_zero.mp hl)
    subst this
    cases fuel' <;> rfl
  | succ f ih =>
    intro fuel' l hl hl'
    cases l with
    | nil => cases fuel' <;> rfl
    | cons b0 rest =>
      cases fuel' with
      | zero => simp at hl'
      | succ f' =>
        simp only [utf8DecodeGo]
        have hdrop : ∀ k, (rest.drop k).length ≤ f := by
          intro k
          simp only [List.length_cons] at hl
          have := List.length_drop k rest
          omega
        have hdrop' : ∀ k, (rest.drop k).length ≤ f' := by
          intro k
          simp only [List.length_cons] at hl'
          have := List.length_drop k rest
          omega
        rw [ih f' (rest.drop (utf8SeqLen b0 - 1)) (hdrop _) (hdrop' _)]

/-- Strict UTF-16 decoding of a byte stream (`hiFirst` = big endian): `some`
scalar values when every unit pairs up, `none` on a trailing byte or a lone
surrogate (in which cases `encoding_rs` reports `had_errors`). -/
def utf16Decode (hiFirst : Bool) : List Nat → Option (List Nat)
  | [] => some []
  | [_] => none
  | a :: b :: rest =>
    let u := if hiFirst then a * 256 + b else b * 256 + a
    if u < 0xD800 ∨ 0xDFFF < u then
      (utf16Decode hiFirst rest).map (fun t => u :: t)
    else if u < 0xDC00 then
      match rest with
      | c :: d :: rest2 =>
        let u2 := if hiFirst then c * 256 + d else d * 256 + c
        if 0xDC00 ≤ u2 ∧ u2 ≤ 0xDFFF then
          (utf16Decode hiFirst rest2).map
            (fun t => (0x10000 + (u - 0xD800) * 1024 + (u2 - 0xDC00)) :: t)
        else none
      | _ => none
    else none
termination_by l => l.length
decreasing_by all_goals (simp_all <;> omega)

/-- windows-1252 decoding of one byte, following the WHATWG index used by
`encoding_rs::WINDOWS_1252` (the five unassigned cells map to the matching C1
controls); every byte decodes, so the fallback never errors. -/
def cp1252Byte (b : Nat) : Nat :=
  match b with
  | 0x80 => 0x20AC
  | 0x82 => 0x201A
  | 0x83 => 0x0192
  | 0x84 => 0x201E
  | 0x85 => 0x2026
  | 0x86 => 0x2020
  | 0x87 => 0x2021
  | 0x88 => 0x02C6
  | 0x89 => 0x2030
  | 0x8A => 0x0160
  | 0x8B => 0x2039
  | 0x8C => 0x0152
  | 0x8E => 0x017D
  | 0x91 => 0x2018
  | 0x92 => 0x2019
  | 0x93 => 0x201C
  | 0x94 => 0x201D
  | 0x95 => 0x2022
  | 0x96 => 0x2013
  | 0x97 => 0x2014
  | 0x98 => 0x02DC
  | 0x99 => 0x2122
  | 0x9A => 0x0161
  | 0x9B => 0x203A
  | 0x9C => 0x0153
  | 0x9E => 0x017E
  | 0x9F => 0x0178
  | _ => b

/-- windows-1252 decoding of a whole buffer: the no-BOM arm of the fallback
`decode` call (never errors). -/
def cp1252Decode (buf : List Nat) : List Nat := buf.map cp1252Byte

/-- `encoding_rs::UTF_8.decode` with BOM sniffing: a leading UTF-8 BOM is
stripped and the rest decoded as UTF-8; a UTF-16 BOM switches to the
BOM-indicated encoding with the BOM removed.  Returns `some text` exactly when
`had_errors` is false, which is the only case whose output processing.rs
uses. -/
def rustDecode : List Nat → Option (List Nat)
  | 0xEF :: 0xBB :: 0xBF :: rest => utf8Decode rest
  | 0xFE :: 0xFF :: rest => utf16Decode true rest
  | 0xFF :: 0xFE :: rest => utf16Decode false rest
  | l => utf8Decode l

/-- Plain continuation byte (third and fourth positions). -/
def contOk (b : Nat) : Bool := 0x80 ≤ b && b < 0xC0

/-- Valid second byte after lead `b0`, with the constrained ranges that
exclude overlongs, surrogates and scalars above U+10FFFF. -/
def utf8ContOk1 (b0 b1 : Nat) : Bool :=
  (if b0 = 0xE0 then 0xA0 else if b0 = 0xF0 then 0x90 else 0x80) ≤ b1 &&
  b1 ≤ (if b0 = 0xED then 0x9F else if b0 = 0xF4 then 0x8F else 0xBF)

/-- Number of valid continuation bytes following lead `b0` (capped at the
sequence's requirement): the length of the maximal subpart minus the lead. -/
def utf8ContCount (b0 : Nat) (rest : List Nat) : Nat :=
  let need := utf8SeqLen b0 - 1
  if need = 0 then 0
  else match rest with
  | [] => 0
  | b1 :: rest1 =>
    if ¬ utf8ContOk1 b0 b1 then 0
    else if need = 1 then 1
    else match rest1 with
    | [] => 1
    | b2 :: rest2 =>
      if ¬ contOk b2 then 1
      else if need = 2 then 2
      else match rest2 with
      | [] => 2
      | b3 :: _ => if ¬ contOk b3 then 2 else 3

/-- Lossy UTF-8 decoding as the WHATWG decoder used by `encoding_rs` performs
it in replacement mode: a valid sequence yields its scalar; an ill-formed one
yields one U+FFFD per maximal subpart (an invalid lead is consumed alone; an
incomplete sequence consumes its lead plus the valid continuation bytes seen,
and the offending byte is reprocessed).  Remaining length as structural
fuel. -/
def utf8LossyGo : Nat → List Nat → List Nat
  | _, [] => []
  | 0, _ :: _ => []
  | fuel + 1, b0 :: rest =>
    if b0 < 0x80 then b0 :: utf8LossyGo fuel rest
    else
      let n := utf8SeqLen b0
      if n = 0 then 0xFFFD :: utf8LossyGo fuel rest
      else
        let k := utf8ContCount b0 rest
        if k = n - 1 then
          match utf8DecodeOne (b0 :: rest.take (n - 1)) with
          | some cp => cp :: utf8LossyGo fuel (rest.drop (n - 1))
          | none => 0xFFFD :: utf8LossyGo fuel (rest.drop (n - 1))
        else 0xFFFD :: utf8LossyGo fuel (rest.drop k)

def utf8Lossy (l : List Nat) : List Nat := utf8LossyGo l.length l

/-- Lossy UTF-16 decoding in replacement mode: a lone trailing byte and an
unpaired surrogate each become one U+FFFD; after a high surrogate's error the
current unit is reprocessed; end of input with any pending state (lead
surrogate, lone byte, or both) is a single error. -/
def utf16LossyGo (hiFirst : Bool) : Nat → List Nat → List Nat
  | _, [] => []
  | _, [_] => [0xFFFD]
  | 0, _ => []
  | fuel + 1, a :: b :: rest =>
    let u := if hiFirst then a * 256 + b else b * 256 + a
    if u < 0xD800 ∨ 0xDFFF < u then u :: utf16LossyGo hiFirst fuel rest
    else if u < 0xDC00 then
      match rest with
      | [] => [0xFFFD]
      | [_] => [0xFFFD]
      | c :: d :: rest2 =>
        let u2 := if hiFirst then c * 256 + d else d * 256 + c
        if 0xDC00 ≤ u2 ∧ u2 ≤ 0xDFFF then
          (0x10000 + (u - 0xD800) * 1024 + (u2 - 0xDC00)) ::
            utf16LossyGo hiFirst fuel rest2
        else 0xFFFD :: utf16LossyGo hiFirst fuel rest
    else 0xFFFD :: utf16LossyGo hiFirst fuel rest

def utf16Lossy (hiFirst : Bool) (l : List Nat) : List Nat :=
  utf16LossyGo hiFirst l.length l

/-- `encoding_rs::WINDOWS_1252.decode(&full_buffer)`: the same BOM-sniffing
`decode` entry point as the primary call, so a BOM-prefixed buffer is
re-decoded lossily with the BOM-indicated encoding; only a BOM-less buffer is
decoded as windows-1252 (which never errors). -/
def fallbackDecode : List Nat → List Nat
  | 0xEF :: 0xBB :: 0xBF :: rest => utf8Lossy rest
  | 0xFE :: 0xFF :: rest => utf16Lossy true rest
  | 0xFF :: 0xFE :: rest => utf16Lossy false rest
  | l => cp1252Decode l

/-! ## Binary sniffing (processing.rs, `is_mostly_text`) -/

/-- `SAMPLE_SIZE` in processing.rs. -/
def sampleSize : Nat := 8192

/-- Rust `char::is_control` (Unicode Cc) excluding `\n`, `\r`, `\t` — the
characters counted by both density checks in processing.rs. -/
def isCtl (c : Nat) : Bool :=
  (c ≤ 0x1F || (0x7F ≤ c && c ≤ 0x9F)) && !(c = 9 || c = 10 || c = 13)

/-- Number of counted control characters in a text. -/
def countCtl (cs : List Nat) : Nat := (cs.filter isCtl).length

/-- The per-byte control test of the non-UTF-8 arm of `is_mostly_text`. -/
def isByteCtl (b : Nat) : Bool :=
  b < 0x09 || (0x0D < b && b < 0x20 && b ≠ 0x1B) || b = 0x7F

/-- `is_mostly_text` from processing.rs.  The `< 0.02` float comparisons are
the exact rational `50 * control < total` (see header note). -/
def is_mostly_text (sample : List Nat) : Bool :=
  if sample.isEmpty then true
  else if sample.contains 0 then false
  else
    match utf8Decode sample with
    | some cs =>
      if cs.isEmpty then true
      else decide (countCtl cs * 50 < cs.length)
    | none => decide ((sample.filter isByteCtl).length * 50 < sample.length)

/-! ## Fence sizing (processing.rs, `fence_for`) -/

/-- The loop state of `fence_for`: `run` is the current run of backticks,
`mx` the maximum seen so far. -/
def fenceAux : Nat → Nat → List Nat → Nat
  | _, mx, [] => mx
  | run, mx, c :: rest =>
    if c = 96 then fenceAux (run + 1) (max mx (run + 1)) rest
    else fenceAux 0 mx rest

/-- Longest run of consecutive backticks, as computed by the `fence_for` loop. -/
def maxBacktickRun (content : List Nat) : Nat := fenceAux 0 0 content

/-- Length of the fence `fence_for` produces. -/
def fenceLen (content : List Nat) : Nat := max 3 (maxBacktickRun content + 1)

/-- `fence_for` from processing.rs (96 is the backtick). -/
def fence_for (content : List Nat) : List Nat := List.replicate (fenceLen content) 96

/-! ## Comment stripping (processing.rs, `strip_comments`)

Each style is one regex alternating string literals with comments, replaced
via a closure that erases only the comment groups.  The Rust `regex` crate
uses leftmost-first (preference-order) matching, and inside these particular
patterns every quantifier step is forced (no backtracking choice points), so
`replace_all` is equivalent to the single left-to-right scans below; each
scanner case is annotated with the alternative it implements. -/

/-- Match `q (\\. | [^q\\])* q` right after its opening quote `q`: returns the
consumed characters (closing quote included) and the rest, or `none` when no
closing quote is reachable (`\\.` cannot cross end-of-input and `.` does not
match a newline, 10). -/
def scanStr (q : Nat) : List Nat → Option (List Nat × List Nat)
  | [] => none
  | c :: rest =>
    if c = q then some ([q], rest)
    else if c = 92 then
      match rest with
      | c2 :: rest2 =>
        if c2 = 10 then none
        else (scanStr q rest2).map (fun pr => (92 :: c2 :: pr.1, pr.2))
      | [] => none
    else (scanStr q rest).map (fun pr => (c :: pr.1, pr.2))
termination_by l => l.length
decreasing_by all_goals (simp_all <;> omega)

/-- On success `scanStr` consumes at least the closing quote. -/
theorem scanStr_length {q : Nat} :
    ∀ (l : List Nat) {b r : List Nat}, scanStr q l = some (b, r) → r.length < l.length := by
  have key : ∀ (n : Nat) (l : List Nat), l.length ≤ n →
      ∀ {b r : List Nat}, scanStr q l = some (b, r) → r.length < l.length := by
    intro n
    induction n with
    | zero =>
      intro l hl b r h
      have : l = [] := List.length_eq_zero.mp (Nat.le_zero.mp hl)
      subst this; simp [scanStr] at h
    | succ n ih =>
      intro l hl b r h
      match l with
      | [] => simp [scanStr.eq_1] at h
      | [c] =>
        rw [scanStr.eq_3] at h
        by_cases hq : c = q
        · rw [if_pos hq] at h
          obtain ⟨h1, h2⟩ := Prod.mk.inj (Option.some.inj h)
          subst h2; simp
        · rw [if_neg hq] at h
          by_cases hc : c = 92
          · rw [if_pos hc] at h; simp at h
          · rw [if_neg hc, scanStr.eq_1] at h; simp at h
      | c :: c2 :: rest2 =>
        rw [scanStr.eq_2] at h
        by_cases hq : c = q
        · rw [if_pos hq] at h
          obtain ⟨h1, h2⟩ := Prod.mk.inj (Option.some.inj h)
          subst h2; simp
        · rw [if_neg hq] at h
          by_cases hc : c = 92
          · rw [if_pos hc] at h
            by_cases hnl : c2 = 10
            · rw [if_pos hnl] at h; simp at h
            · rw [if_neg hnl] at h
              rw [Option.map_eq_some'] at h
              obtain ⟨⟨b', r'⟩, hsome, heq⟩ := h
              obtain ⟨h1, h2⟩ := Prod.mk.inj heq
              subst h2
              have hlen : rest2.length ≤ n := by simp at hl; omega
              have := ih rest2 hlen hsome
              simp; omega
          · rw [if_neg hc] at h
            rw [Option.map_eq_some'] at h
            obtain ⟨⟨b', r'⟩, hsome, heq⟩ := h
            obtain ⟨h1, h2⟩ := Prod.mk.inj heq
            subst h2
            have hlen : (c2 :: rest2).length ≤ n := by
              simp only [List.length_cons] at hl ⊢; omega
            have := ih (c2 :: rest2) hlen hsome
            simp only [List.length_cons] at this ⊢; omega
  intro l b r h
  exact key l.length l le_rfl h

/-- Position of the earliest `*/` (the lazy `[\s\S]*?` of the C block-comment
alternative): returns the input after the first `*/`, or `none`. -/
def findBlockEnd : List Nat → Option (List Nat)
  | 42 :: 47 :: rest => some rest
  | _ :: rest => findBlockEnd rest
  | [] => none

theorem findBlockEnd_length :
    ∀ (l r : List Nat), findBlockEnd l = some r → r.length + 2 ≤ l.length := by
  intro l
  induction l using findBlockEnd.induct with
  | case1 rest => intro r h; simp [findBlockEnd] at h; simp [h]
  | case2 c rest hne ih => intro r h; simp_all [findBlockEnd]; omega
  | case3 => intro r h; simp [findBlockEnd] at h

/-- Earliest `-->` (the lazy `.*?` of the XML comment regex, with `(?s)` so it
crosses newlines): input after the first `-->`, or `none`. -/
def findXmlEnd : List Nat → Option (List Nat)
  | 45 :: 45 :: 62 :: rest => some rest
  | _ :: rest => findXmlEnd rest
  | [] => none

theorem findXmlEnd_length :
    ∀ (l r : List Nat), findXmlEnd l = some r → r.length + 3 ≤ l.length := by
  intro l
  induction l using findXmlEnd.induct with
  | case1 rest => intro r h; simp [findXmlEnd] at h; simp [h]
  | case2 c rest hne ih => intro r h; simp_all [findXmlEnd]; omega
  | case3 => intro r h; simp [findXmlEnd] at h

/-- The C style replacement scan: double- (34) and single-quoted (39) strings
are copied, `/* ... */` block comments and `// ...` line comments (which stop
before the newline thanks to `(?m)` and `$`) are erased; a position where no
alternative matches copies one character, exactly as the regex engine advances
by one after a failed match attempt. -/
def stripC : List Nat → List Nat
  | [] => []
  | 34 :: rest =>
    match h : scanStr 34 rest with
    | some (b, r) => 34 :: b ++ stripC r
    | none => 34 :: stripC rest
  | 39 :: rest =>
    match h : scanStr 39 rest with
    | some (b, r) => 39 :: b ++ stripC r
    | none => 39 :: stripC rest
  | 47 :: 42 :: rest =>
    match h : findBlockEnd rest with
    | some r => stripC r
    | none => 47 :: stripC (42 :: rest)
  | 47 :: 47 :: rest => stripC (rest.dropWhile (fun c => c ≠ 10))
  | c :: rest => c :: stripC rest
termination_by l => l.length
decreasing_by
  all_goals simp only [List.length_cons]
  · have := scanStr_length _ h; omega
  · omega
  · have := scanStr_length _ h; omega
  · omega
  · have := findBlockEnd_length _ _ h; omega
  · omega
  · have : (rest.dropWhile (fun c => c ≠ 10)).length ≤ rest.length :=
      (List.dropWhile_sublist _).length_le
    omega
  · omega

/-- The Hash style scan: strings copied, `# ...` to end of line erased. -/
def stripHash : List Nat → List Nat
  | [] => []
  | 34 :: rest =>
    match h : scanStr 34 rest with
    | some (b, r) => 34 :: b ++ stripHash r
    | none => 34 :: stripHash rest
  | 39 :: rest =>
    match h : scanStr 39 rest with
    | some (b, r) => 39 :: b ++ stripHash r
    | none => 39 :: stripHash rest
  | 35 :: rest => stripHash (rest.dropWhile (fun c => c ≠ 10))
  | c :: rest => c :: stripHash rest
termination_by l => l.length
decreasing_by
  all_goals simp only [List.length_cons]
  · have := scanStr_length _ h; omega
  · omega
  · have := scanStr_length _ h; omega
  · omega
  · have : (rest.dropWhile (fun c => c ≠ 10)).length ≤ rest.length :=
      (List.dropWhile_sublist _).length_le
    omega
  · omega

/-- The Dash style scan: strings copied, `-- ...` to end of line erased. -/
def stripDash : List Nat → List Nat
  | [] => []
  | 34 :: rest =>
    match h : scanStr 34 rest with
    | some (b, r) => 34 :: b ++ stripDash r
    | none => 34 :: stripDash rest
  | 39 :: rest =>
    match h : scanStr 39 rest with
    | some (b, r) => 39 :: b ++ stripDash r
    | none => 39 :: stripDash rest
  | 45 :: 45 :: rest => stripDash (rest.dropWhile (fun c => c ≠ 10))
  | c :: rest => c :: stripDash rest
termination_by l => l.length
decreasing_by
  all_goals simp only [List.length_cons]
  · have := scanStr_length _ h; omega
  · omega
  · have := scanStr_length _ h; omega
  · omega
  · have : (rest.dropWhile (fun c => c ≠ 10)).length ≤ rest.length :=
      (List.dropWhile_sublist _).length_le
    omega
  · omega

/-- The XML style scan: `<!-- ... -->` erased, no string-awareness. -/
def stripXml : List Nat → List Nat
  | [] => []
  | 60 :: 33 :: 45 :: 45 :: rest =>
    match h : findXmlEnd rest with
    | some r => stripXml r
    | none => 60 :: stripXml (33 :: 45 :: 45 :: rest)
  | c :: rest => c :: stripXml rest
termination_by l => l.length
decreasing_by
  all_goals simp only [List.length_cons]
  · have := findXmlEnd_length _ _ h; omega
  · omega
  · omega

/-- The comment-style enumeration of `strip_comments`. -/
inductive Style where
  | c
  | hash
  | dash
  | xml
  | noStyle
deriving DecidableEq

/-- The extension dispatch table of `strip_comments` (keys already
lowercased). -/
def styleFor (extLower : List Nat) : Style :=
  if extLower ∈ [s2n "rs", s2n "c", s2n "cpp", s2n "h", s2n "hpp", s2n "js",
      s2n "ts", s2n "java", s2n "go", s2n "kt", s2n "swift", s2n "css",
      s2n "cs", s2n "php"] then .c
  else if extLower ∈ [s2n "py", s2n "sh", s2n "rb", s2n "yaml", s2n "yml",
      s2n "toml", s2n "dockerfile", s2n "pl", s2n "ps1"] then .hash
  else if extLower ∈ [s2n "sql", s2n "lua", s2n "hs"] then .dash
  else if extLower ∈ [s2n "html", s2n "xml", s2n "vue", s2n "svelte"] then .xml
  else .noStyle

/-- `strip_comments` from processing.rs. -/
def strip_comments (content : List Nat) (ext : List Nat) : List Nat :=
  match styleFor (asciiLower ext) with
  | .c => stripC content
  | .hash => stripHash content
  | .dash => stripDash content
  | .xml => stripXml content
  | .noStyle => content

/-! ## Paths, file names and extensions -/

/-- A path relative to the canonicalized root, as its list of components
(each component the scalar values of one name). -/
abbrev FPath : Type := List (List Nat)

/-- The file name of a path (its last component). -/
def fileNameOf (p : FPath) : List Nat := p.getLast?.getD []

/-- Rust `Path::extension` on a file name: the portion after the last dot
(46), `none` when there is no dot or the only dot is the leading one. -/
def rust_extension (name : List Nat) : Option (List Nat) :=
  if name.contains 46 then
    let tail := (name.reverse.takeWhile (fun c => c ≠ 46)).reverse
    if tail.length + 1 = name.length then none else some tail
  else none

/-- `clean_path` from main.rs on one component: backslashes become forward
slashes (the `\\?\` strip only applies to absolute Windows paths, which the
relative components embedded here never carry). -/
def cleanName (name : List Nat) : List Nat :=
  name.map (fun c => if c = 92 then 47 else c)

/-- The sort key of discovery.rs: the cleaned relative path joined by `/`. -/
def keyOf (p : FPath) : List Nat :=
  List.intercalate [47] ((p : List (List Nat)).map cleanName)

/-! ## The content extractor (processing.rs, `process_file`) -/

/-- A consistent filesystem snapshot: the content of each existing file.
`metadata` sizes and the bytes read agree (see the header note). -/
abbrev FileSys : Type := FPath → Option (List Nat)

/-- Omission reasons, one constructor per format string of the source, with
the formatted numbers as payloads. -/
inductive Reason where
  /-- main.rs: "Metadata error: …". -/
  | metadataMain
  /-- processing.rs: "Failed to read metadata: …". -/
  | metadataErr
  /-- "Size … MB exceeds limit of … MB". -/
  | sizeExceedsLimit (sizeMb limitMb : Nat)
  /-- "Failed to open file: …" (unreachable in the consistent-snapshot model). -/
  | openErr
  /-- "Failed to read file: …" (unreachable in the consistent-snapshot model). -/
  | readErr
  /-- "File content exceeded limit of … MB (detected during read)". -/
  | readExceeded (limitMb : Nat)
  /-- "Binary detected". -/
  | binaryDetected
  /-- "Too many control chars: …%". -/
  | tooManyControlChars
  /-- main.rs: "Budget exceeded (limit=… MB)". -/
  | budgetExceeded (limitMb : Nat)
deriving DecidableEq

/-- `FileStatus` from processing.rs. -/
inductive FileStatus where
  | Included (path : FPath) (content : List Nat) (size : Nat)
  | Omitted (path : FPath) (reason : Reason) (size : Nat)
deriving DecidableEq

/-- `config.max_file_mb.saturating_mul(1024 * 1024)`. -/
def maxFileBytes (cfg : AppConfig) : Nat := satMul64 cfg.max_file_mb 1048576

/-- The conditional comment-stripping step of `process_file`
(`MAX_STRIP_SIZE` is 1 MiB). -/
def maybeStrip (cfg : AppConfig) (p : FPath) (bufLen : Nat) (text : List Nat) : List Nat :=
  if cfg.remove_comments ∧ bufLen < 1048576 then
    strip_comments text ((rust_extension (fileNameOf p)).getD [])
  else text

/-- `process_file` from processing.rs over a consistent snapshot. -/
def process_file (cfg : AppConfig) (fs : FileSys) (p : FPath) : FileStatus :=
  match fs p with
  | none => .Omitted p .metadataErr 0
  | some bytes =>
    let size := bytes.length
    let maxBytes := maxFileBytes cfg
    if size > maxBytes then
      .Omitted p (.sizeExceedsLimit (size / 1048576) cfg.max_file_mb) size
    else if size = 0 then .Included p [] 0
    else
      let buf := bytes.take (satAdd64 maxBytes 1)
      if buf.length > maxBytes then .Omitted p (.readExceeded cfg.max_file_mb) buf.length
      else
        let sample := buf.take (min sampleSize buf.length)
        if is_mostly_text sample = false then .Omitted p .binaryDetected buf.length
        else
          match rustDecode buf with
          | some text => .Included p (maybeStrip cfg p buf.length text) buf.length
          | none =>
            let text := fallbackDecode buf
            let ctl := countCtl text
            let chars := max text.length 1
            if ctl * 100 > chars then .Omitted p .tooManyControlChars buf.length
            else .Included p (maybeStrip cfg p buf.length text) buf.length

/-! ## Discovery (discovery.rs, `find_files`) -/

/-- The fixed sensitive directory names of discovery.rs. -/
def absoluteExcludeDirs : List (List Nat) :=
  [s2n ".git", s2n ".ssh", s2n ".aws", s2n ".gnupg", s2n ".kube", s2n ".cargo",
   s2n ".rustup"]

/-- The `LOCKFILES` constant of discovery.rs. -/
def lockfileNames : List (List Nat) :=
  [s2n "Cargo.lock", s2n "package-lock.json", s2n "yarn.lock",
   s2n "pnpm-lock.yaml", s2n "Gemfile.lock", s2n "poetry.lock"]

/-- `is_lockfile` from discovery.rs (exact, case-sensitive match). -/
def is_lockfile (name : List Nat) : Bool := lockfileNames.contains name

/-- ASCII decimal digit. -/
def isDigitN (c : Nat) : Bool := 48 ≤ c && c ≤ 57

/-- The `MERGED_REGEX` of discovery.rs: `^merged_\d{8}_\d{6}\.md$`. -/
def matchesMergedRegex (name : List Nat) : Bool :=
  name.length = 25 &&
  name.take 7 == s2n "merged_" &&
  ((name.drop 7).take 8).all isDigitN &&
  (name.drop 15).take 1 == [95] &&
  ((name.drop 16).take 6).all isDigitN &&
  name.drop 22 == s2n ".md"

/-- The per-file exclusion chain of `find_files` (discovery.rs lines 93-125),
in source order; `true` means the file is skipped. -/
def fileExcluded (cfg : AppConfig) (name : List Nat) : Bool :=
  let nameLower := asciiLower name
  if matchesMergedRegex name || nameLower == s2n "ctxsnap.toml" then true
  else if !cfg.include_lockfiles && is_lockfile name then true
  else if (cfg.exclude_file.map asciiLower).contains nameLower then true
  else if (s2n ".env").isPrefixOf nameLower
      && !((s2n ".example").isSuffixOf nameLower)
      && !((s2n ".sample").isSuffixOf nameLower)
      && !((s2n ".template").isSuffixOf nameLower)
      && nameLower != s2n ".envrc" then true
  else if (match rust_extension name with
           | some ex => cfg.exclude_ext.any (fun e => asciiLower ex == asciiLower e)
           | none => false) then true
  else false

/-- A directory tree.  Children carry their walker enumeration order; a
symlink is never followed and never yields a candidate. -/
inductive FSEntry where
  | file (name : List Nat) (content : List Nat)
  | dir (name : List Nat) (children : List FSEntry)
  | symlink (name : List Nat)

/-- The `filter_entry` pruning predicate of `find_files` for a directory at
depth > 0: `true` means the subtree is skipped. -/
def pruneDirName (cfg : AppConfig) (name : List Nat) : Bool :=
  let nl := asciiLower name
  (cfg.exclude_dir.map asciiLower).contains nl || absoluteExcludeDirs.contains nl

/-- The walk of the `ignore` crate builder (follow_links(false),
max_depth(depth), hidden(false)) plus the in-loop symlink/dir skips of
`find_files`.  `ign` is an oracle for the crate's VCS-ignore machinery
(consulted only when `use_gitignore` is set); candidates are
(relative path, content) pairs in enumeration order, before the per-file
exclusion chain and the final sort. -/
def walkFiles (cfg : AppConfig) (ign : FPath → Bool) :
    Nat → List (List Nat) → List FSEntry → List (FPath × List Nat)
  | _, _, [] => []
  | depth, comps, e :: rest =>
    (match e with
     | .file name content =>
       if depth ≤ cfg.depth && !(cfg.use_gitignore && ign (comps ++ [name])) then
         [(comps ++ [name], content)]
       else []
     | .symlink _ => []
     | .dir name children =>
       if depth ≤ cfg.depth && !pruneDirName cfg name &&
           !(cfg.use_gitignore && ign (comps ++ [name])) then
         walkFiles cfg ign (depth + 1) (comps ++ [name]) children
       else []) ++
    walkFiles cfg ign depth comps rest

/-- Candidate order: ascending by the cleaned relative-path key.  Rust's
stable `sort_by` is modelled by the (stable) insertion sort. -/
def candLe (a b : FPath × List Nat) : Prop := keyOf a.1 ≤ keyOf b.1

instance : DecidableRel candLe := fun a b =>
  inferInstanceAs (Decidable (keyOf a.1 ≤ keyOf b.1))

/-- The deterministic sort at the end of `find_files`. -/
def sortCands (l : List (FPath × List Nat)) : List (FPath × List Nat) :=
  List.insertionSort candLe l

/-- `find_files` over a tree: walk the root's children (the root itself is
yielded at depth 0, where `filter_entry` never prunes, and is skipped as a
directory), filter by the per-file chain, sort by the cleaned relative
path. -/
def find_files (cfg : AppConfig) (ign : FPath → Bool) (root : FSEntry) :
    List (FPath × List Nat) :=
  match root with
  | .dir _ children =>
    sortCands ((walkFiles cfg ign 1 [] children).filter
      (fun c => !fileExcluded cfg (fileNameOf c.1)))
  | _ => []

/-! ## The snapshot assembler (output.rs, `SnapshotWriter`) -/

/-- `SnapshotWriter` state.  The spooled temp file holding the body is a byte
sink, modelled as the accumulated character list; the `HashMap` of
per-extension stats is an association list (`ext ↦ (count, bytes)`) updated in
place like `entry().or_default()`. -/
structure Writer where
  body : List Nat
  includedPaths : List FPath
  omitted : List (FPath × Reason × Nat)
  totalBytes : Nat
  totalLines : Nat
  statsByExt : List (List Nat × Nat × Nat)
  topOffenders : List (FPath × Nat)
deriving DecidableEq

/-- `SnapshotWriter::new` (timestamps are not modelled). -/
def emptyWriter : Writer :=
  { body := [], includedPaths := [], omitted := [], totalBytes := 0,
    totalLines := 0, statsByExt := [], topOffenders := [] }

/-- Rust `str::lines().count()`: the number of `\n`-terminated or final
unterminated lines. -/
def lineCount (content : List Nat) : Nat :=
  if content.isEmpty then 0
  else (content.filter (fun c => c = 10)).length +
    (if content.getLast? = some 10 then 0 else 1)

/-- The stats key: `path.extension().unwrap_or("(no-ext)")`. -/
def extKey (p : FPath) : List Nat :=
  (rust_extension (fileNameOf p)).getD (s2n "(no-ext)")

/-- `entry(ext).or_default(); entry.0 += 1; entry.1 += size` on the
association list. -/
def bumpExt : List (List Nat × Nat × Nat) → List Nat → Nat → List (List Nat × Nat × Nat)
  | [], e, sz => [(e, 1, sz)]
  | (k, c, b) :: rest, e, sz =>
    if k = e then (k, c + 1, b + sz) :: rest else (k, c, b) :: bumpExt rest e sz

/-- `write_file_content`: the document section for one included file
(10 is `\n`; the heading line, the fence line tagged with the raw extension,
the content — newline-terminated — and the closing fence). -/
def fileSection (p : FPath) (content : List Nat) : List Nat :=
  let ext := (rust_extension (fileNameOf p)).getD []
  let fence := fence_for content
  s2n "## " ++ keyOf p ++ [10, 10] ++
  fence ++ ext ++ [10] ++
  content ++ (if content.getLast? = some 10 then [] else [10]) ++
  fence ++ [10, 10]

/-- `SnapshotWriter::process_status`. -/
def process_status (w : Writer) (st : FileStatus) : Writer :=
  match st with
  | .Included p content size =>
    { w with
      statsByExt := bumpExt w.statsByExt (extKey p) size
      topOffenders := w.topOffenders ++ [(p, size)]
      body := w.body ++ fileSection p content
      includedPaths := w.includedPaths ++ [p]
      totalBytes := w.totalBytes + size
      totalLines := w.totalLines + lineCount content }
  | .Omitted p reason size =>
    { w with omitted := w.omitted ++ [(p, reason, size)] }

/-- Descending-by-size order for the top-offender sort
(`sort_by(|a, b| b.1.cmp(&a.1))`, stable). -/
def offLe (a b : FPath × Nat) : Prop := b.2 ≤ a.2

instance : DecidableRel offLe := fun a b => inferInstanceAs (Decidable (b.2 ≤ a.2))

/-- Descending-by-bytes order for the composition table. -/
def compLe (a b : List Nat × Nat × Nat) : Prop := b.2.2 ≤ a.2.2

instance : DecidableRel compLe := fun a b => inferInstanceAs (Decidable (b.2.2 ≤ a.2.2))

/-- The document `finalize` renders, modelled structurally (header timestamp
text and the floating-point "MB" formatting of the numbers are not modelled;
every ordering- and content-carrying part is). -/
structure RenderedDoc where
  /-- One `- <relpath>` line per included file, in writer order. -/
  tocLines : List (List Nat)
  /-- The body: concatenation of the per-file sections, in writer order. -/
  body : List Nat
  /-- The `## Discovery Errors` bullet list (empty list = section absent). -/
  errorLines : List (List Nat)
  /-- The `## Omitted` table rows, in writer order. -/
  omittedRows : List (FPath × Reason × Nat)
  includedCount : Nat
  omittedCount : Nat
  totalBytes : Nat
  totalLines : Nat
  /-- The `### Composition` table, sorted by size descending. -/
  composition : List (List Nat × Nat × Nat)
deriving DecidableEq

/-- `SnapshotStats` from output.rs. -/
structure SnapshotStats where
  total_files : Nat
  total_bytes : Nat
  total_lines : Nat
  omitted_count : Nat
  top_offenders : List (FPath × Nat)
deriving DecidableEq

/-- `SnapshotWriter::finalize`: sort-and-truncate the top offenders, render
the document, return the stats. -/
def finalize (w : Writer) (discoveryErrors : List (List Nat)) :
    RenderedDoc × SnapshotStats :=
  let sortedOff := (List.insertionSort offLe w.topOffenders).take 5
  ({ tocLines := w.includedPaths.map (fun p => s2n "- " ++ keyOf p)
     body := w.body
     errorLines := discoveryErrors
     omittedRows := w.omitted
     includedCount := w.includedPaths.length
     omittedCount := w.omitted.length
     totalBytes := w.totalBytes
     totalLines := w.totalLines
     composition := List.insertionSort compLe w.statsByExt },
   { total_files := w.includedPaths.length
     total_bytes := w.totalBytes
     total_lines := w.totalLines
     omitted_count := w.omitted.length
     top_offenders := sortedOff })

/-! ## The driver loop (main.rs lines 86-120) -/

/-- `config.max_total_mb.saturating_mul(1024 * 1024)`. -/
def maxTotalBytes (cfg : AppConfig) : Nat := satMul64 cfg.max_total_mb 1048576

/-- The per-candidate loop of main.rs, producing the `FileStatus` stream and
threading the running total `used`.  Statuses are folded into the writer
separately (`runWriter`); the two interleave in the source but the writer
never influences `used`, so the decomposition is exact. -/
def runPipe (cfg : AppConfig) (fs : FileSys) :
    List FPath → Nat → List FileStatus × Nat
  | [], used => ([], used)
  | p :: ps, used =>
    match fs p with
    | none =>
      let rec' := runPipe cfg fs ps used
      (.Omitted p .metadataMain 0 :: rec'.1, rec'.2)
    | some bytes =>
      let size := bytes.length
      if satAdd64 used size > maxTotalBytes cfg then
        let rec' := runPipe cfg fs ps used
        (.Omitted p (.budgetExceeded cfg.max_total_mb) size :: rec'.1, rec'.2)
      else
        let st := process_file cfg fs p
        let used' :=
          match st with
          | .Included _ _ s => satAdd64 used s
          | .Omitted _ _ _ => used
        let rec' := runPipe cfg fs ps used'
        (st :: rec'.1, rec'.2)

/-- Folding the status stream into the writer. -/
def runWriter (w : Writer) (sts : List FileStatus) : Writer :=
  sts.foldl process_status w

/-- The size charged to the running total by one status. -/
def includedSize : FileStatus → Nat
  | .Included _ _ s => s
  | .Omitted _ _ _ => 0

/-- The paths of the Included statuses, in order. -/
def includedPathsOf (sts : List FileStatus) : List FPath :=
  sts.filterMap (fun st =>
    match st with
    | .Included p _ _ => some p
    | .Omitted _ _ _ => none)

/-- Sum of the Included sizes of a status stream. -/
def includedBytes (sts : List FileStatus) : Nat :=
  (sts.map includedSize).sum

/-! ## Fence-sizing lemmas (claim C5) -/

theorem fenceAux_mx (l : List Nat) :
    ∀ r mx, fenceAux r mx l = max mx (fenceAux r 0 l) := by
  induction l with
  | nil => intro r mx; simp [fenceAux]
  | cons c t ih =>
    intro r mx
    by_cases hc : c = 96
    · subst hc
      simp only [fenceAux, reduceIte]
      rw [ih (r + 1) (max mx (r + 1)), ih (r + 1) (max 0 (r + 1))]
      omega
    · simp only [fenceAux, if_neg hc]
      exact ih 0 mx

theorem fenceAux_mono (l : List Nat) :
    ∀ r r', r ≤ r' → fenceAux r 0 l ≤ fenceAux r' 0 l := by
  induction l with
  | nil => intro r r' _; simp [fenceAux]
  | cons c t ih =>
    intro r r' hr
    by_cases hc : c = 96
    · subst hc
      simp only [fenceAux, reduceIte]
      rw [fenceAux_mx t (r + 1) (max 0 (r + 1)), fenceAux_mx t (r' + 1) (max 0 (r' + 1))]
      have := ih (r + 1) (r' + 1) (by omega)
      omega
    · simp only [fenceAux, if_neg hc]
      exact le_rfl

theorem fenceAux_suffix (l : List Nat) :
    ∀ r s, s <:+ l → fenceAux 0 0 s ≤ fenceAux r 0 l := by
  induction l with
  | nil =>
    intro r s hs
    rw [List.suffix_nil.mp hs]
    simp [fenceAux]
  | cons c t ih =>
    intro r s hs
    rcases List.suffix_cons_iff.mp hs with h | h
    · subst h
      by_cases hc : c = 96
      · subst hc
        simp only [fenceAux, reduceIte]
        rw [fenceAux_mx t 1 (max 0 1), fenceAux_mx t (r + 1) (max 0 (r + 1))]
        have := fenceAux_mono t 1 (r + 1) (by omega)
        omega
      · simp only [fenceAux, if_neg hc]
        exact le_rfl
    · by_cases hc : c = 96
      · subst hc
        simp only [fenceAux, reduceIte]
        rw [fenceAux_mx t (r + 1) (max 0 (r + 1))]
        have := ih (r + 1) s h
        omega
      · simp only [fenceAux, if_neg hc]
        exact ih 0 s h

theorem fenceAux_of_run_left (l : List Nat) :
    ∀ r m, List.replicate m 96 <+: l → r + m ≤ max r (fenceAux r 0 l) := by
  induction l with
  | nil =>
    intro r m hp
    have h0 : List.replicate m 96 = [] := List.prefix_nil.mp hp
    have hm : m = 0 := by
      have := congrArg List.length h0
      simpa using this
    simp [hm, fenceAux]
  | cons c t ih =>
    intro r m hp
    match m with
    | 0 => simp
    | m + 1 =>
      rw [List.replicate_succ] at hp
      obtain ⟨hc, hp'⟩ := List.cons_prefix_cons.mp hp
      subst hc
      simp only [fenceAux, reduceIte]
      rw [fenceAux_mx t (r + 1) (max 0 (r + 1))]
      have := ih (r + 1) m hp'
      omega

theorem fenceAux_run_exists (l : List Nat) :
    ∀ r, List.replicate (fenceAux r 0 l) 96 <:+: List.replicate r 96 ++ l := by
  induction l with
  | nil =>
    intro r
    simp only [fenceAux, List.replicate_zero]
    exact ⟨[], List.replicate r 96, by simp⟩
  | cons c t ih =>
    intro r
    by_cases hc : c = 96
    · subst hc
      have hsplit : List.replicate r 96 ++ 96 :: t = List.replicate (r + 1) 96 ++ t := by
        rw [List.replicate_succ']
        simp
      simp only [fenceAux, reduceIte]
      rw [fenceAux_mx t (r + 1) (max 0 (r + 1)), hsplit]
      rcases Nat.le_total (fenceAux (r + 1) 0 t) (r + 1) with hle | hle
      · have hmax : max (max 0 (r + 1)) (fenceAux (r + 1) 0 t) = r + 1 := by omega
        rw [hmax]
        exact List.infix_iff_prefix_suffix.mpr
          ⟨List.replicate (r + 1) 96 ++ t, ⟨t, rfl⟩, List.suffix_rfl⟩
      · have hmax : max (max 0 (r + 1)) (fenceAux (r + 1) 0 t) = fenceAux (r + 1) 0 t := by
          omega
        rw [hmax]
        exact ih (r + 1)
    · simp only [fenceAux, if_neg hc]
      have h1 := ih 0
      simp only [List.replicate_zero, List.nil_append] at h1
      have h2 : t <:+: List.replicate r 96 ++ c :: t :=
        ⟨List.replicate r 96 ++ [c], [], by simp⟩
      exact h1.trans h2

/-- The fold of `fence_for` does compute the longest backtick run:
existence half. -/
theorem maxBacktickRun_le (content : List Nat) :
    List.replicate (maxBacktickRun content) 96 <:+: content := by
  have := fenceAux_run_exists content 0
  simpa [maxBacktickRun] using this

/-- The fold of `fence_for` does compute the longest backtick run:
dominance half. -/
theorem le_maxBacktickRun (content : List Nat) (m : Nat)
    (h : List.replicate m 96 <:+: content) : m ≤ maxBacktickRun content := by
  obtain ⟨t, hpre, hsuf⟩ := List.infix_iff_prefix_suffix.mp h
  have h1 := fenceAux_of_run_left t 0 m hpre
  have h2 := fenceAux_suffix content 0 t hsuf
  unfold maxBacktickRun
  omega

/-- **C5.**  For every included file's content, if the longest run of
consecutive backticks in the content has length `k`, then (1) the fence
`fence_for` produces has length exactly `max 3 (k + 1)`; (2) the rendered
section of `write_file_content` uses that same fence, of that same length,
both as opening fence (followed by the raw extension tag) and as closing
fence; (3) no backtick run inside the content reaches the fence length, so
the fence can never be confused with content. -/
theorem c5_fence_sizing (content : List Nat) (k : Nat)
    (hk : List.replicate k 96 <:+: content)
    (hmax : ¬ List.replicate (k + 1) 96 <:+: content) :
    fenceLen content = max 3 (k + 1) ∧
    (∀ p : FPath, fileSection p content =
      s2n "## " ++ keyOf p ++ [10, 10] ++
      (List.replicate (max 3 (k + 1)) 96 ++ ((rust_extension (fileNameOf p)).getD []) ++ [10] ++
       content ++ (if content.getLast? = some 10 then [] else [10]) ++
       List.replicate (max 3 (k + 1)) 96 ++ [10, 10])) ∧
    (∀ m, List.replicate m 96 <:+: content → m < fenceLen content) := by
  have hrun : maxBacktickRun content = k := by
    have h1 := le_maxBacktickRun content k hk
    have h2 := maxBacktickRun_le content
    rcases Nat.lt_or_ge (maxBacktickRun content) (k + 1) with h | h
    · omega
    · exfalso
      apply hmax
      have hpre : List.replicate (k + 1) 96 <+: List.replicate (maxBacktickRun content) 96 :=
        ⟨List.replicate (maxBacktickRun content - (k + 1)) 96, by
          rw [← List.replicate_add]; congr 1; omega⟩
      exact (List.infix_iff_prefix_suffix.mpr ⟨_, hpre, List.suffix_rfl⟩).trans h2
  have hlen : fenceLen content = max 3 (k + 1) := by
    unfold fenceLen
    rw [hrun]
  refine ⟨hlen, ?_, ?_⟩
  · intro p
    simp only [fileSection, fence_for, hlen, List.append_assoc]
  · intro m hm
    have := le_maxBacktickRun content m hm
    omega

/-- Witness for C5 at concrete content with a 2-backtick run. -/
theorem c5_fence_sizing_witness :
    (List.replicate 2 96 <:+: s2n "a``b") ∧ fenceLen (s2n "a``b") = max 3 (2 + 1) :=
  ⟨by decide, (c5_fence_sizing (s2n "a``b") 2 (by decide) (by decide)).1⟩

/-! ## Claim C10: the Omitted branch is a pure append to the omission list -/

/-- One unfolding step of the driver loop, with the `used'` selection
re-expressed as a match on the extractor's result. -/
theorem runPipe_cons (cfg : AppConfig) (fs : FileSys) (q : FPath) (ps : List FPath)
    (used : Nat) :
    runPipe cfg fs (q :: ps) used =
      match fs q with
      | none =>
        (.Omitted q .metadataMain 0 :: (runPipe cfg fs ps used).1,
         (runPipe cfg fs ps used).2)
      | some bytes =>
        if satAdd64 used bytes.length > maxTotalBytes cfg then
          (.Omitted q (.budgetExceeded cfg.max_total_mb) bytes.length ::
             (runPipe cfg fs ps used).1,
           (runPipe cfg fs ps used).2)
        else
          match process_file cfg fs q with
          | .Included p c s =>
            (.Included p c s :: (runPipe cfg fs ps (satAdd64 used s)).1,
             (runPipe cfg fs ps (satAdd64 used s)).2)
          | .Omitted p r s =>
            (.Omitted p r s :: (runPipe cfg fs ps used).1,
             (runPipe cfg fs ps used).2) := by
  rw [runPipe]
  cases hfs : fs q with
  | none => rfl
  | some bytes =>
    simp only
    split
    · rfl
    · cases hpf : process_file cfg fs q with
      | Included p c s => simp [hpf]
      | Omitted p r s => simp [hpf]

/-- **C10.**  Consuming an `Omitted` result in the assembler appends exactly
one `(path, reason, size)` row to the omission list and leaves every other
assembler field unchanged (included paths, total bytes, total lines,
per-extension stats, top-offender list, body buffer); and in the driver loop
a candidate whose status comes out `Omitted` leaves the budget running total
for the remaining candidates unchanged. -/
theorem c10_omitted_frame (w : Writer) (p : FPath) (r : Reason) (s : Nat)
    (cfg : AppConfig) (fs : FileSys) (q : FPath) (ps : List FPath) (used : Nat) :
    (process_status w (.Omitted p r s)).omitted = w.omitted ++ [(p, r, s)] ∧
    (process_status w (.Omitted p r s)).includedPaths = w.includedPaths ∧
    (process_status w (.Omitted p r s)).totalBytes = w.totalBytes ∧
    (process_status w (.Omitted p r s)).totalLines = w.totalLines ∧
    (process_status w (.Omitted p r s)).statsByExt = w.statsByExt ∧
    (process_status w (.Omitted p r s)).topOffenders = w.topOffenders ∧
    (process_status w (.Omitted p r s)).body = w.body ∧
    (∀ st sts u', runPipe cfg fs (q :: ps) used = (st :: sts, u') →
      (∃ pr rr sr, st = FileStatus.Omitted pr rr sr) →
      (sts, u') = runPipe cfg fs ps used) := by
  refine ⟨rfl, rfl, rfl, rfl, rfl, rfl, rfl, ?_⟩
  intro st sts u' hrun hex
  obtain ⟨pr, rr, sr, hst⟩ := hex
  rw [runPipe_cons] at hrun
  cases hfs : fs q with
  | none =>
    simp only [hfs] at hrun
    obtain ⟨h1, h2⟩ := Prod.mk.inj hrun
    obtain ⟨h3, h4⟩ := List.cons.inj h1
    rw [Prod.ext_iff]
    exact ⟨h4.symm, h2.symm⟩
  | some bytes =>
    simp only [hfs] at hrun
    by_cases hb : satAdd64 used bytes.length > maxTotalBytes cfg
    · rw [if_pos hb] at hrun
      obtain ⟨h1, h2⟩ := Prod.mk.inj hrun
      obtain ⟨h3, h4⟩ := List.cons.inj h1
      rw [Prod.ext_iff]
      exact ⟨h4.symm, h2.symm⟩
    · rw [if_neg hb] at hrun
      cases hpf : process_file cfg fs q with
      | Included p' c' s' =>
        simp only [hpf] at hrun
        obtain ⟨h1, h2⟩ := Prod.mk.inj hrun
        obtain ⟨h3, h4⟩ := List.cons.inj h1
        rw [← h3] at hst
        exact absurd hst (by simp)
      | Omitted p' r' s' =>
        simp only [hpf] at hrun
        obtain ⟨h1, h2⟩ := Prod.mk.inj hrun
        obtain ⟨h3, h4⟩ := List.cons.inj h1
        rw [Prod.ext_iff]
        exact ⟨h4.symm, h2.symm⟩

/-- Witness for C10 at concrete inputs (empty writer, one omitted file, a
one-candidate run whose candidate has no metadata). -/
theorem c10_omitted_frame_witness :
    (process_status emptyWriter
        (.Omitted [s2n "a.txt"] .binaryDetected 3)).omitted =
      emptyWriter.omitted ++ [([s2n "a.txt"], Reason.binaryDetected, 3)] ∧
    ([], 0) = runPipe defaultConfig (fun _ => none) [] 0 := by
  constructor
  · exact (c10_omitted_frame emptyWriter [s2n "a.txt"] .binaryDetected 3
      defaultConfig (fun _ => none) [s2n "b.txt"] [] 0).1
  · exact ((c10_omitted_frame emptyWriter [s2n "a.txt"] .binaryDetected 3
      defaultConfig (fun _ => none) [s2n "b.txt"] [] 0).2.2.2.2.2.2.2
        (.Omitted [s2n "b.txt"] .metadataMain 0) [] 0 (by rfl)
        ⟨[s2n "b.txt"], .metadataMain, 0, rfl⟩)

/-! ## Decoder lemmas for runs of ASCII bytes -/

theorem utf8Decode_ascii_cons (b : Nat) (hb : b < 0x80) (l : List Nat) :
    utf8Decode (b :: l) = (utf8Decode l).map (fun t => b :: t) := by
  unfold utf8Decode
  rw [List.length_cons]
  simp only [utf8DecodeGo]
  have h1 : utf8SeqLen b = 1 := by simp [utf8SeqLen, hb]
  rw [h1]
  simp [utf8DecodeOne, hb]

theorem utf8Decode_replicate97 (n : Nat) (l : List Nat) :
    utf8Decode (List.replicate n 97 ++ l) =
      (utf8Decode l).map (fun t => List.replicate n 97 ++ t) := by
  induction n with
  | zero =>
    simp only [List.replicate_zero, List.nil_append]
    cases utf8Decode l <;> simp
  | succ n ih =>
    rw [List.replicate_succ, List.cons_append,
      utf8Decode_ascii_cons 97 (by omega), ih]
    cases utf8Decode l <;> simp [List.replicate_succ]

theorem countCtl_append (l₁ l₂ : List Nat) :
    countCtl (l₁ ++ l₂) = countCtl l₁ + countCtl l₂ := by
  simp [countCtl, List.filter_append]

theorem countCtl_replicate97 (n : Nat) : countCtl (List.replicate n 97) = 0 := by
  induction n with
  | zero => simp [countCtl]
  | succ n ih =>
    rw [List.replicate_succ]
    simpa [countCtl, List.filter_cons, isCtl] using ih

theorem replicate97_not_contains_zero (n : Nat) :
    (List.replicate n 97).contains 0 = false := by
  simp [List.mem_replicate]

theorem is_mostly_text_replicate97 (n : Nat) :
    is_mostly_text (List.replicate n 97) = true := by
  match n with
  | 0 => rfl
  | n + 1 =>
    unfold is_mostly_text
    rw [if_neg (by simp)]
    rw [if_neg (by simp [List.mem_replicate])]
    have hdec := utf8Decode_replicate97 (n + 1) []
    simp only [List.append_nil] at hdec
    rw [hdec]
    simp only [utf8Decode, utf8DecodeGo, List.length_nil, Option.map_some',
      List.append_nil]
    rw [if_neg (by simp)]
    rw [countCtl_replicate97]
    simp

/-- Evaluation of `process_file` past the stat/size/empty/read gates, for a
file that exists, is non-empty and within the per-file limit: the read
returns the whole content and control passes to the sniff/decode stages. -/
theorem process_file_run (cfg : AppConfig) (fs : FileSys) (p : FPath)
    (bytes : List Nat) (hfs : fs p = some bytes)
    (hle : bytes.length ≤ maxFileBytes cfg) (hne : bytes ≠ []) :
    process_file cfg fs p =
      if is_mostly_text (bytes.take (min sampleSize bytes.length)) = false then
        .Omitted p .binaryDetected bytes.length
      else
        match rustDecode bytes with
        | some text => .Included p (maybeStrip cfg p bytes.length text) bytes.length
        | none =>
          if countCtl (fallbackDecode bytes) * 100 >
              max (fallbackDecode bytes).length 1 then
            .Omitted p .tooManyControlChars bytes.length
          else
            .Included p (maybeStrip cfg p bytes.length (fallbackDecode bytes))
              bytes.length := by
  have hlen0 : bytes.length ≠ 0 := fun h => hne (List.length_eq_zero.mp h)
  have htake : bytes.take (satAdd64 (maxFileBytes cfg) 1) = bytes := by
    apply List.take_of_length_le
    have : maxFileBytes cfg ≤ u64Max := by
      unfold maxFileBytes satMul64
      omega
    unfold satAdd64
    omega
  unfold process_file
  rw [hfs]
  dsimp only
  rw [if_neg (by omega), if_neg hlen0, htake, if_neg (by omega)]

theorem rustDecode_no_bom (b : Nat) (rest : List Nat)
    (h1 : b ≠ 0xEF) (h2 : b ≠ 0xFE) (h3 : b ≠ 0xFF) :
    rustDecode (b :: rest) = utf8Decode (b :: rest) := by
  rw [rustDecode.eq_def]
  split
  · next heq => rw [List.cons.inj heq |>.1] at h1; exact absurd rfl h1
  · next heq => rw [List.cons.inj heq |>.1] at h2; exact absurd rfl h2
  · next heq => rw [List.cons.inj heq |>.1] at h3; exact absurd rfl h3
  · rfl

/-- A successful decode of a non-empty input yields at least one scalar. -/
theorem utf8Decode_cons_ne_nil {b : Nat} {rest cs : List Nat}
    (h : utf8Decode (b :: rest) = some cs) : cs ≠ [] := by
  unfold utf8Decode at h
  rw [List.length_cons] at h
  simp only [utf8DecodeGo] at h
  split at h
  · simp at h
  · split at h
    · simp at h
    · split at h
      · simp at h
      · rw [Option.map_eq_some'] at h
        obtain ⟨t, ht, heq⟩ := h
        rw [← heq]
        simp

/-- A sample containing a zero byte is classified binary. -/
theorem is_mostly_text_of_zero (sample : List Nat) (h : sample.contains 0 = true) :
    is_mostly_text sample = false := by
  match sample with
  | [] => simp at h
  | c :: rest =>
    unfold is_mostly_text
    rw [if_neg (by simp), if_pos h]

/-! ## Claim C2: binary detection -/

/-- **C2 (amended).**  (1) A file whose *leading 8 KiB sample* (the whole
buffer if shorter) contains a zero byte is Omitted with the binary-detected
reason; (2) an Omitted result contributes nothing to the document body, so
the file never appears as its own section; (3) for a non-empty sample with no
zero byte that is valid UTF-8, the sniff classifies text exactly when the
counted control characters (Unicode Cc minus newline/carriage-return/tab) are
below 2 % of the characters (`50 * control < total`). -/
theorem c2_zero_byte_sample (cfg : AppConfig) (fs : FileSys) (p : FPath)
    (bytes : List Nat) (hfs : fs p = some bytes)
    (hle : bytes.length ≤ maxFileBytes cfg)
    (hz : (bytes.take (min sampleSize bytes.length)).contains 0 = true) :
    process_file cfg fs p = .Omitted p .binaryDetected bytes.length ∧
    (∀ w : Writer, ∀ q r s, (process_status w (.Omitted q r s)).body = w.body) ∧
    (∀ sample cs : List Nat, sample ≠ [] → sample.contains 0 = false →
      utf8Decode sample = some cs →
      (is_mostly_text sample = true ↔ countCtl cs * 50 < cs.length)) := by
  have hne : bytes ≠ [] := by
    intro hnil
    rw [hnil] at hz
    simp at hz
  refine ⟨?_, fun w q r s => rfl, ?_⟩
  · rw [process_file_run cfg fs p bytes hfs hle hne,
      if_pos (is_mostly_text_of_zero _ hz)]
  · intro sample cs hsne hszero hdec
    match sample with
    | [] => exact absurd rfl hsne
    | c :: rest =>
      have hcs := utf8Decode_cons_ne_nil hdec
      unfold is_mostly_text
      rw [hdec]
      simp only [List.isEmpty_cons, Bool.false_eq_true, if_false, hszero]
      rw [if_neg (by simp [List.isEmpty_iff, hcs])]
      simp

/-- Witness for C2 (amended): a 3-byte file whose sample holds a NUL is
omitted as binary. -/
theorem c2_zero_byte_sample_witness :
    process_file defaultConfig
        (fun q => if q = [s2n "b.bin"] then some [97, 0, 98] else none)
        [s2n "b.bin"] =
      .Omitted [s2n "b.bin"] .binaryDetected 3 :=
  (c2_zero_byte_sample defaultConfig
    (fun q => if q = [s2n "b.bin"] then some [97, 0, 98] else none)
    [s2n "b.bin"] [97, 0, 98] (by simp) (by decide) (by decide)).1

/-- **C2 counterexample.**  The claim says any file whose content contains a
zero byte is Omitted as binary.  But the sniff only looks at the first 8 KiB:
a file of 8192 `a` bytes followed by one NUL passes the sample check, decodes
as valid UTF-8 (NUL is a valid scalar), and is Included — with the zero byte
in its content. -/
theorem c2_counterexample :
    ((List.replicate 8192 97 ++ [0]).contains 0 = true) ∧
    process_file defaultConfig
        (fun q => if q = [s2n "blob.txt"] then
            some (List.replicate 8192 97 ++ [0]) else none)
        [s2n "blob.txt"] =
      .Included [s2n "blob.txt"] (List.replicate 8192 97 ++ [0]) 8193 := by
  have hbytes : (List.replicate 8192 97 ++ [0] : List Nat).length = 8193 := by
    rw [List.length_append, List.length_replicate, List.length_cons, List.length_nil]
  have hnenil : (List.replicate 8192 97 ++ [0] : List Nat) ≠ [] := by
    intro h
    have h2 := congrArg List.length h
    rw [hbytes, List.length_nil] at h2
    exact absurd h2 (by norm_num)
  constructor
  · rw [List.contains_eq_any_beq, List.any_append]
    have h : ([0] : List Nat).any (fun x => 0 == x) = true := rfl
    rw [h, Bool.or_true]
  · rw [process_file_run defaultConfig _ _ (List.replicate 8192 97 ++ [0])
      rfl (by rw [hbytes]; norm_num [maxFileBytes, satMul64, u64Max, defaultConfig])
      hnenil]
    have hmin : min sampleSize 8193 = 8192 := by norm_num [sampleSize]
    have hsample : (List.replicate 8192 97 ++ [0] : List Nat).take
        (min sampleSize (List.replicate 8192 97 ++ [0] : List Nat).length) =
        List.replicate 8192 97 := by
      rw [hbytes, hmin]
      exact List.take_left' (List.length_replicate 8192 97)
    rw [hsample, is_mostly_text_replicate97]
    simp only [Bool.true_eq_false, if_false]
    have hsplit : (List.replicate 8192 97 ++ [0] : List Nat) =
        97 :: (List.replicate 8191 97 ++ [0]) := by
      rw [show (8192 : Nat) = 8191 + 1 from rfl, List.replicate_succ, List.cons_append]
    have hdec : rustDecode (List.replicate 8192 97 ++ [0]) =
        some (List.replicate 8192 97 ++ [0]) := by
      rw [hsplit, rustDecode_no_bom 97 _ (by omega) (by omega) (by omega), ← hsplit,
        utf8Decode_replicate97]
      have h0 : utf8Decode [0] = some [0] := by decide
      rw [h0]
      rfl
    rw [hdec]
    simp only [hbytes]
    have hstrip : maybeStrip defaultConfig [s2n "blob.txt"] 8193
        (List.replicate 8192 97 ++ [0]) = List.replicate 8192 97 ++ [0] := by
      unfold maybeStrip
      rw [if_neg (by simp [defaultConfig])]
    rw [hstrip]

/-! ## Claim C4: encoding fallback -/

/-- A buffer that does not start with a byte-order mark is fallback-decoded
as windows-1252. -/
theorem fallbackDecode_no_bom (l : List Nat)
    (h3 : l.take 3 ≠ [0xEF, 0xBB, 0xBF])
    (hbe : l.take 2 ≠ [0xFE, 0xFF]) (hle : l.take 2 ≠ [0xFF, 0xFE]) :
    fallbackDecode l = cp1252Decode l := by
  rw [fallbackDecode.eq_def]
  split
  · exact absurd rfl h3
  · exact absurd rfl hbe
  · exact absurd rfl hle
  · rfl

/-- **C4 (amended).**  When the primary Unicode decode fails or is lossy, the
extractor re-decodes the buffer with the windows-1252 fallback call and
checks the fallback text's control density against the stricter 1 %
threshold: *strictly above* 1 % the file is Omitted with the
too-many-control-characters reason; at or below 1 % it is Included with the
fallback-decoded text.  The fallback entry point BOM-sniffs like the primary
one: a buffer with no leading byte-order mark is decoded as windows-1252,
while a BOM-prefixed buffer is re-decoded lossily with the BOM-indicated
encoding (never as windows-1252).  In particular BOM-prefixed valid UTF-8 is
Included with the BOM stripped. -/
theorem c4_fallback (cfg : AppConfig) (fs : FileSys) (p : FPath)
    (bytes : List Nat) (hfs : fs p = some bytes)
    (hle : bytes.length ≤ maxFileBytes cfg) (hne : bytes ≠ [])
    (hsniff : is_mostly_text (bytes.take (min sampleSize bytes.length)) = true)
    (hdec : rustDecode bytes = none) :
    (countCtl (fallbackDecode bytes) * 100 > max (fallbackDecode bytes).length 1 →
      process_file cfg fs p = .Omitted p .tooManyControlChars bytes.length) ∧
    (countCtl (fallbackDecode bytes) * 100 ≤ max (fallbackDecode bytes).length 1 →
      process_file cfg fs p =
        .Included p (maybeStrip cfg p bytes.length (fallbackDecode bytes))
          bytes.length) ∧
    (∀ l : List Nat, l.take 3 ≠ [0xEF, 0xBB, 0xBF] →
      l.take 2 ≠ [0xFE, 0xFF] → l.take 2 ≠ [0xFF, 0xFE] →
      fallbackDecode l = cp1252Decode l) ∧
    (∀ rest : List Nat,
      fallbackDecode (0xEF :: 0xBB :: 0xBF :: rest) = utf8Lossy rest ∧
      fallbackDecode (0xFE :: 0xFF :: rest) = utf16Lossy true rest ∧
      fallbackDecode (0xFF :: 0xFE :: rest) = utf16Lossy false rest) ∧
    (∀ (fs' : FileSys) (p' : FPath) (rest cs : List Nat),
      fs' p' = some (0xEF :: 0xBB :: 0xBF :: rest) →
      rest.length + 3 ≤ maxFileBytes cfg →
      is_mostly_text ((0xEF :: 0xBB :: 0xBF :: rest).take
        (min sampleSize (rest.length + 3))) = true →
      utf8Decode rest = some cs →
      process_file cfg fs' p' =
        .Included p' (maybeStrip cfg p' (rest.length + 3) cs) (rest.length + 3)) := by
  have hbase := process_file_run cfg fs p bytes hfs hle hne
  rw [hsniff] at hbase
  simp only [Bool.true_eq_false, if_false] at hbase
  rw [hdec] at hbase
  refine ⟨?_, ?_, fallbackDecode_no_bom, fun rest => ⟨rfl, rfl, rfl⟩, ?_⟩
  · intro hgt
    rw [hbase, if_pos hgt]
  · intro hle2
    rw [hbase, if_neg (by omega)]
  · intro fs' p' rest cs hfs' hle2 hsniff2 hcs
    have hlen : (0xEF :: 0xBB :: 0xBF :: rest : List Nat).length = rest.length + 3 := by
      simp only [List.length_cons]
    have hne2 : (0xEF :: 0xBB :: 0xBF :: rest : List Nat) ≠ [] := by simp
    have hb := process_file_run cfg fs' p' _ hfs' (by rw [hlen]; exact hle2) hne2
    rw [hlen] at hb
    rw [hb, hsniff2]
    simp only [Bool.true_eq_false, if_false]
    have hrd : rustDecode (0xEF :: 0xBB :: 0xBF :: rest) = utf8Decode rest := rfl
    rw [hrd, hcs]

set_option maxRecDepth 8192 in
/-- Witness for C4 (amended): two C1 controls in 100 fallback characters is
strictly above 1 % and omitted; one in 100 is at 1 % and included as
windows-1252; a BOM-less buffer is fallback-decoded as windows-1252; a
UTF-8-BOM buffer of invalid UTF-8 is re-decoded lossily to replacement
characters and Included (not read as windows-1252 controls); BOM plus `ab`
is included with the BOM stripped. -/
theorem c4_fallback_witness :
    process_file defaultConfig
        (fun q => if q = [s2n "u.txt"] then
            some (129 :: 129 :: List.replicate 98 97) else none)
        [s2n "u.txt"] =
      .Omitted [s2n "u.txt"] .tooManyControlChars 100 ∧
    process_file defaultConfig
        (fun q => if q = [s2n "v.txt"] then
            some (0xE9 :: List.replicate 99 97) else none)
        [s2n "v.txt"] =
      .Included [s2n "v.txt"] (0xE9 :: List.replicate 99 97) 100 ∧
    fallbackDecode [129] = cp1252Decode [129] ∧
    fallbackDecode (0xEF :: 0xBB :: 0xBF :: List.replicate 100 0x81) =
      utf8Lossy (List.replicate 100 0x81) ∧
    process_file defaultConfig
        (fun q => if q = [s2n "r.txt"] then
            some (0xEF :: 0xBB :: 0xBF :: List.replicate 100 0x81) else none)
        [s2n "r.txt"] =
      .Included [s2n "r.txt"] (List.replicate 100 0xFFFD) 103 ∧
    process_file defaultConfig
        (fun q => if q = [s2n "bom.txt"] then
            some (0xEF :: 0xBB :: 0xBF :: [97, 98]) else none)
        [s2n "bom.txt"] =
      .Included [s2n "bom.txt"] [97, 98] 5 := by
  refine ⟨?_, ?_, ?_, ?_, ?_, ?_⟩
  · have h := (c4_fallback defaultConfig
      (fun q => if q = [s2n "u.txt"] then
          some (129 :: 129 :: List.replicate 98 97) else none)
      [s2n "u.txt"] (129 :: 129 :: List.replicate 98 97) rfl
      (by decide) (by decide) (by decide) (by decide)).1 (by decide)
    rw [h]
    decide
  · have h := (c4_fallback defaultConfig
      (fun q => if q = [s2n "v.txt"] then
          some (0xE9 :: List.replicate 99 97) else none)
      [s2n "v.txt"] (0xE9 :: List.replicate 99 97) rfl
      (by decide) (by decide) (by decide) (by decide)).2.1 (by decide)
    rw [h]
    decide
  · exact (c4_fallback defaultConfig
      (fun q => if q = [s2n "z.txt"] then some [129] else none)
      [s2n "z.txt"] [129] rfl (by decide) (by decide) (by decide)
      (by decide)).2.2.1 [129] (by decide) (by decide) (by decide)
  · exact ((c4_fallback defaultConfig
      (fun q => if q = [s2n "z.txt"] then some [129] else none)
      [s2n "z.txt"] [129] rfl (by decide) (by decide) (by decide)
      (by decide)).2.2.2.1 (List.replicate 100 0x81)).1
  · have h := (c4_fallback defaultConfig
      (fun q => if q = [s2n "r.txt"] then
          some (0xEF :: 0xBB :: 0xBF :: List.replicate 100 0x81) else none)
      [s2n "r.txt"] (0xEF :: 0xBB :: 0xBF :: List.replicate 100 0x81) rfl
      (by decide) (by decide) (by decide) (by decide)).2.1 (by decide)
    rw [h]
    decide
  · have h := (c4_fallback defaultConfig
      (fun q => if q = [s2n "z.txt"] then some [129] else none)
      [s2n "z.txt"] [129] rfl (by decide) (by decide) (by decide)
      (by decide)).2.2.2.2
      (fun q => if q = [s2n "bom.txt"] then
          some (0xEF :: 0xBB :: 0xBF :: [97, 98]) else none)
      [s2n "bom.txt"] [97, 98] [97, 98] rfl (by decide) (by decide) (by decide)
    rw [h]
    decide

/-- **C4 counterexample.**  The claim says that *at or above* the 1 % ratio
the file is Omitted.  The code uses a strict comparison
(`control_ratio > 0.01`): a fallback text of exactly 1 % control characters
(one C1 control among 100 windows-1252 characters) is Included, not
Omitted. -/
theorem c4_counterexample :
    countCtl (fallbackDecode (129 :: List.replicate 99 97)) * 100 =
      (fallbackDecode (129 :: List.replicate 99 97)).length ∧
    rustDecode (129 :: List.replicate 99 97) = none ∧
    process_file defaultConfig
        (fun q => if q = [s2n "w.txt"] then
            some (129 :: List.replicate 99 97) else none)
        [s2n "w.txt"] =
      .Included [s2n "w.txt"] (129 :: List.replicate 99 97) 100 := by
  refine ⟨by decide, by decide, ?_⟩
  have h := (c4_fallback defaultConfig
    (fun q => if q = [s2n "w.txt"] then
        some (129 :: List.replicate 99 97) else none)
    [s2n "w.txt"] (129 :: List.replicate 99 97) rfl
    (by decide) (by decide) (by decide) (by decide)).2.1 (by decide)
  rw [h]
  decide

/-! ## Claim C1: total-budget conservation -/

/-- An `Included` result always reports as `size` the number of bytes the
bounded read actually returned, which in a consistent snapshot is the file's
full length (the per-file gate guarantees it fits under the read limit). -/
theorem process_file_included (cfg : AppConfig) (fs : FileSys) (p q : FPath)
    (c : List Nat) (s : Nat) (h : process_file cfg fs p = .Included q c s) :
    ∃ b, fs p = some b ∧ s = b.length ∧
      s = (b.take (satAdd64 (maxFileBytes cfg) 1)).length := by
  unfold process_file at h
  cases hfs : fs p with
  | none => rw [hfs] at h; simp at h
  | some b =>
    rw [hfs] at h
    dsimp only at h
    refine ⟨b, rfl, ?_⟩
    have htake : b.take (satAdd64 (maxFileBytes cfg) 1) = b ∨
        maxFileBytes cfg < b.length := by
      by_cases hl : b.length ≤ maxFileBytes cfg
      · left
        apply List.take_of_length_le
        have : maxFileBytes cfg ≤ u64Max := by unfold maxFileBytes satMul64; omega
        unfold satAdd64
        omega
      · right; omega
    by_cases h1 : b.length > maxFileBytes cfg
    · rw [if_pos h1] at h; simp at h
    · rw [if_neg h1] at h
      rcases htake with htake | htake
      swap
      · omega
      by_cases h2 : b.length = 0
      · rw [if_pos h2] at h
        simp only [FileStatus.Included.injEq] at h
        rw [htake]
        omega
      · rw [if_neg h2] at h
        rw [htake] at h
        rw [if_neg h1] at h
        by_cases h4 : is_mostly_text (b.take (min sampleSize b.length)) = false
        · rw [if_pos h4] at h; simp at h
        · rw [if_neg h4] at h
          rw [htake]
          cases hrd : rustDecode b with
          | some text =>
            rw [hrd] at h
            simp only [FileStatus.Included.injEq] at h
            omega
          | none =>
            rw [hrd] at h
            dsimp only at h
            split at h
            · simp at h
            · simp only [FileStatus.Included.injEq] at h
              omega

/-- The budget invariant of the driver loop, generalized over the running
total. -/
theorem runPipe_budget (cfg : AppConfig) (fs : FileSys)
    (hmax : maxTotalBytes cfg < u64Max) :
    ∀ (paths : List FPath) (used : Nat), used ≤ maxTotalBytes cfg →
      used + includedBytes (runPipe cfg fs paths used).1 ≤ maxTotalBytes cfg ∧
      (runPipe cfg fs paths used).2 =
        used + includedBytes (runPipe cfg fs paths used).1 := by
  intro paths
  induction paths with
  | nil =>
    intro used hused
    constructor
    · simpa [runPipe, includedBytes] using hused
    · simp [runPipe, includedBytes]
  | cons p ps ih =>
    intro used hused
    rw [runPipe_cons]
    cases hfs : fs p with
    | none =>
      simp only [includedBytes, List.map_cons, List.sum_cons, includedSize]
      have := ih used hused
      unfold includedBytes at this
      omega
    | some b =>
      dsimp only
      by_cases hb : satAdd64 used b.length > maxTotalBytes cfg
      · rw [if_pos hb]
        simp only [includedBytes, List.map_cons, List.sum_cons, includedSize]
        have := ih used hused
        unfold includedBytes at this
        omega
      · rw [if_neg hb]
        cases hpf : process_file cfg fs p with
        | Included q c s =>
          obtain ⟨b', hb', hs, -⟩ := process_file_included cfg fs p q c s hpf
          rw [hfs] at hb'
          have hbb : b' = b := by injection hb' with h; exact h.symm
          subst hbb
          have hadd : satAdd64 used b'.length = used + b'.length := by
            unfold satAdd64 at hb ⊢
            omega
          have hused' : satAdd64 used s ≤ maxTotalBytes cfg := by
            rw [hs, hadd]
            unfold satAdd64 at hb
            omega
          have hadd' : satAdd64 used s = used + s := by
            unfold satAdd64 at hused' ⊢
            omega
          have := ih (satAdd64 used s) hused'
          simp only [includedBytes, List.map_cons, List.sum_cons, includedSize]
          unfold includedBytes at this
          omega
        | Omitted q r s =>
          simp only [includedBytes, List.map_cons, List.sum_cons, includedSize]
          have := ih used hused
          unfold includedBytes at this
          omega

/-- The configuration of the two-1MiB-files example: default settings with a
1 MB total budget. -/
def mibConfig : AppConfig := { defaultConfig with max_total_mb := 1 }

/-- One mebibyte of `a`. -/
def mibFile : List Nat := List.replicate 1048576 97

/-- Two 1 MiB files, in sort order `a.txt` before `b.txt`. -/
def mibFs : FileSys := fun q =>
  if q = [s2n "a.txt"] then some mibFile
  else if q = [s2n "b.txt"] then some mibFile else none

theorem mibFile_length : mibFile.length = 1048576 :=
  List.length_replicate 1048576 97

/-- `process_file` on a non-empty all-`a` file within the per-file limit,
comment stripping off: the file is Included unchanged, with its full size. -/
theorem process_file_replicate97 (cfg : AppConfig) (fs : FileSys) (p : FPath)
    (n : Nat) (hn : 0 < n) (hfs : fs p = some (List.replicate n 97))
    (hle : n ≤ maxFileBytes cfg) (hnc : cfg.remove_comments = false) :
    process_file cfg fs p = .Included p (List.replicate n 97) n := by
  have hlen : (List.replicate n 97).length = n := List.length_replicate n 97
  have hne : List.replicate n 97 ≠ [] := by
    intro h
    have h2 := congrArg List.length h
    rw [hlen] at h2
    simp at h2
    omega
  rw [process_file_run cfg fs p (List.replicate n 97) hfs (by rw [hlen]; exact hle)
    hne]
  have hsample : (List.replicate n 97).take
      (min sampleSize (List.replicate n 97).length) =
      List.replicate (min (min sampleSize n) n) 97 := by
    rw [hlen, List.take_replicate]
  rw [hsample, is_mostly_text_replicate97]
  simp only [Bool.true_eq_false, if_false]
  have hsplit : List.replicate n 97 = 97 :: List.replicate (n - 1) 97 := by
    conv_lhs => rw [show n = (n - 1) + 1 by omega]
    rw [List.replicate_succ]
  have hdec : rustDecode (List.replicate n 97) = some (List.replicate n 97) := by
    rw [hsplit, rustDecode_no_bom 97 _ (by omega) (by omega) (by omega), ← hsplit]
    have h := utf8Decode_replicate97 n []
    rw [List.append_nil] at h
    rw [h, show utf8Decode [] = some [] from rfl, Option.map_some', List.append_nil]
  rw [hdec]
  dsimp only
  have hstrip : maybeStrip cfg p (List.replicate n 97).length (List.replicate n 97) =
      List.replicate n 97 := by
    unfold maybeStrip
    rw [if_neg (by simp [hnc])]
  rw [hstrip, hlen]

theorem mib_process_file :
    process_file mibConfig mibFs [s2n "a.txt"] =
      .Included [s2n "a.txt"] mibFile 1048576 :=
  process_file_replicate97 mibConfig mibFs [s2n "a.txt"] 1048576 (by norm_num) rfl
    (by norm_num [maxFileBytes, satMul64, u64Max, mibConfig, defaultConfig]) rfl

/-- **C1.**  Over any run: (1) the sum of `size` over all Included results
never exceeds the configured total byte budget (whenever that budget is below
the u64 saturation point, as every real configuration is); (2) the final
running total equals exactly the sum of the Included `size` fields — and by
(3) an Included `size` is always the byte count the bounded read actually
returned, not the stat estimate; (4) with two 1 MiB files and a 1 MiB total
budget the first file in sort order is Included and the second Omitted with
the budget-exceeded reason carrying its known size. -/
theorem c1_total_budget (cfg : AppConfig) (fs : FileSys) (paths : List FPath)
    (hmax : maxTotalBytes cfg < u64Max) :
    includedBytes (runPipe cfg fs paths 0).1 ≤ maxTotalBytes cfg ∧
    (runPipe cfg fs paths 0).2 = includedBytes (runPipe cfg fs paths 0).1 ∧
    (∀ p q c s, process_file cfg fs p = .Included q c s →
      ∃ b, fs p = some b ∧ s = (b.take (satAdd64 (maxFileBytes cfg) 1)).length) ∧
    (runPipe mibConfig mibFs [[s2n "a.txt"], [s2n "b.txt"]] 0 =
      ([.Included [s2n "a.txt"] mibFile 1048576,
        .Omitted [s2n "b.txt"] (.budgetExceeded 1) 1048576], 1048576) ∧
     keyOf [s2n "a.txt"] < keyOf [s2n "b.txt"]) := by
  obtain ⟨hb1, hb2⟩ := runPipe_budget cfg fs hmax paths 0 (by omega)
  refine ⟨by omega, by omega, ?_, ?_, by decide⟩
  · intro p q c s h
    obtain ⟨b, hfs, -, htk⟩ := process_file_included cfg fs p q c s h
    exact ⟨b, hfs, htk⟩
  · have hlen := mibFile_length
    have hmaxT : maxTotalBytes mibConfig = 1048576 := by
      norm_num [maxTotalBytes, satMul64, u64Max, mibConfig, defaultConfig]
    rw [runPipe_cons]
    have hfsa : mibFs [s2n "a.txt"] = some mibFile := rfl
    simp only [hfsa]
    rw [hlen]
    have hsat0 : satAdd64 0 1048576 = 1048576 := by norm_num [satAdd64, u64Max]
    rw [hsat0, hmaxT, if_neg (by omega), mib_process_file]
    dsimp only
    rw [hsat0]
    rw [runPipe_cons]
    have hfsb : mibFs [s2n "b.txt"] = some mibFile := rfl
    rw [hfsb]
    dsimp only
    rw [hlen]
    have hsat1 : satAdd64 1048576 1048576 = 2097152 := by
      norm_num [satAdd64, u64Max]
    rw [hsat1, hmaxT, if_pos (by omega)]
    show (_ :: FileStatus.Omitted [s2n "b.txt"]
        (.budgetExceeded mibConfig.max_total_mb) 1048576 ::
        (runPipe mibConfig mibFs [] 1048576).1,
      (runPipe mibConfig mibFs [] 1048576).2) = _
    rw [show mibConfig.max_total_mb = 1 from rfl]
    rfl

/-- Witness for C1: the default configuration is below the saturation point
and a trivial run satisfies the invariant. -/
theorem c1_total_budget_witness :
    maxTotalBytes defaultConfig < u64Max ∧
    includedBytes (runPipe defaultConfig (fun _ => none) [] 0).1 ≤
      maxTotalBytes defaultConfig :=
  ⟨by norm_num [maxTotalBytes, satMul64, u64Max, defaultConfig],
   (c1_total_budget defaultConfig (fun _ => none) []
     (by norm_num [maxTotalBytes, satMul64, u64Max, defaultConfig])).1⟩

/-! ## Claim C8: document order -/

/-- The path a status reports. -/
def statusPath : FileStatus → FPath
  | .Included p _ _ => p
  | .Omitted p _ _ => p

/-- `process_file` reports the candidate's own path. -/
theorem process_file_path (cfg : AppConfig) (fs : FileSys) (p : FPath) :
    statusPath (process_file cfg fs p) = p := by
  unfold process_file
  cases fs p with
  | none => rfl
  | some b =>
    dsimp only
    repeat' split
    all_goals rfl

/-- The driver's status stream carries exactly the candidate paths, in
order. -/
theorem runPipe_paths (cfg : AppConfig) (fs : FileSys) :
    ∀ (paths : List FPath) (used : Nat),
      ((runPipe cfg fs paths used).1).map statusPath = paths := by
  intro paths
  induction paths with
  | nil => intro used; rfl
  | cons p ps ih =>
    intro used
    rw [runPipe_cons]
    cases hfs : fs p with
    | none =>
      simp only [List.map_cons, statusPath, ih]
    | some b =>
      dsimp only
      split
      · simp only [List.map_cons, statusPath, ih]
      · cases hpf : process_file cfg fs p with
        | Included q c s =>
          have hq : q = p := by
            have := process_file_path cfg fs p
            rw [hpf] at this
            exact this
          simp only [List.map_cons, statusPath, ih, hq]
        | Omitted q r s =>
          have hq : q = p := by
            have := process_file_path cfg fs p
            rw [hpf] at this
            exact this
          simp only [List.map_cons, statusPath, ih, hq]

/-- The per-file document sections of a status stream, in order. -/
def sectionsOf (sts : List FileStatus) : List (List Nat) :=
  sts.filterMap (fun st =>
    match st with
    | .Included p c _ => some (fileSection p c)
    | .Omitted _ _ _ => none)

/-- Folding a status stream into the writer appends the included paths and
the corresponding body sections, in stream order. -/
theorem runWriter_order :
    ∀ (sts : List FileStatus) (w : Writer),
      (runWriter w sts).includedPaths = w.includedPaths ++ includedPathsOf sts ∧
      (runWriter w sts).body = w.body ++ (sectionsOf sts).flatten := by
  intro sts
  induction sts with
  | nil =>
    intro w
    simp [runWriter, includedPathsOf, sectionsOf]
  | cons st rest ih =>
    intro w
    have hstep : runWriter w (st :: rest) = runWriter (process_status w st) rest := rfl
    rw [hstep]
    obtain ⟨h1, h2⟩ := ih (process_status w st)
    cases st with
    | Included p c s =>
      constructor
      · rw [h1]
        simp [process_status, includedPathsOf]
      · rw [h2]
        simp [process_status, sectionsOf]
    | Omitted p r s =>
      constructor
      · rw [h1]
        simp [process_status, includedPathsOf]
      · rw [h2]
        simp [process_status, sectionsOf]

/-- The included paths are a sublist of all status paths. -/
theorem includedPathsOf_sublist (sts : List FileStatus) :
    List.Sublist (includedPathsOf sts) (sts.map statusPath) := by
  induction sts with
  | nil => simp [includedPathsOf]
  | cons st rest ih =>
    cases st with
    | Included p c s =>
      simpa [includedPathsOf, statusPath] using ih.cons₂ p
    | Omitted p r s =>
      simpa [includedPathsOf, statusPath] using ih.cons p

/-- **C8.**  With candidates processed in ascending key order: the table of
contents lists exactly the included paths in stream (= discovery) order; the
body is the concatenation of the per-file sections in the same order; that
order is ascending in the normalized relative-path key; the rendered document
does not depend on the top-offender accumulator at all; and the top-5 list is
produced only at finalize time by the descending stable sort followed by
truncation to 5. -/
theorem c8_document_order (cfg : AppConfig) (fs : FileSys) (paths : List FPath)
    (errs : List (List Nat))
    (hsorted : paths.Pairwise (fun a b => keyOf a ≤ keyOf b)) :
    (finalize (runWriter emptyWriter (runPipe cfg fs paths 0).1) errs).1.tocLines =
      (runWriter emptyWriter (runPipe cfg fs paths 0).1).includedPaths.map
        (fun p => s2n "- " ++ keyOf p) ∧
    (runWriter emptyWriter (runPipe cfg fs paths 0).1).includedPaths =
      includedPathsOf (runPipe cfg fs paths 0).1 ∧
    (runWriter emptyWriter (runPipe cfg fs paths 0).1).body =
      (sectionsOf (runPipe cfg fs paths 0).1).flatten ∧
    (runWriter emptyWriter (runPipe cfg fs paths 0).1).includedPaths.Pairwise
      (fun a b => keyOf a ≤ keyOf b) ∧
    (∀ v, (finalize { runWriter emptyWriter (runPipe cfg fs paths 0).1 with
        topOffenders := v } errs).1 =
      (finalize (runWriter emptyWriter (runPipe cfg fs paths 0).1) errs).1) ∧
    (finalize (runWriter emptyWriter (runPipe cfg fs paths 0).1) errs).2.top_offenders =
      (List.insertionSort offLe
        (runWriter emptyWriter (runPipe cfg fs paths 0).1).topOffenders).take 5 := by
  obtain ⟨hinc, hbody⟩ := runWriter_order (runPipe cfg fs paths 0).1 emptyWriter
  refine ⟨rfl, ?_, ?_, ?_, fun v => rfl, rfl⟩
  · rw [hinc]
    rfl
  · rw [hbody]
    rfl
  · rw [hinc]
    simp only [emptyWriter, List.nil_append]
    have hmap : ((runPipe cfg fs paths 0).1).map statusPath = paths :=
      runPipe_paths cfg fs paths 0
    have : ((runPipe cfg fs paths 0).1).map statusPath |>.Pairwise
        (fun a b => keyOf a ≤ keyOf b) := by rw [hmap]; exact hsorted
    exact this.sublist (includedPathsOf_sublist _)

/-- Witness for C8 at a singleton sorted candidate list. -/
theorem c8_document_order_witness :
    (finalize (runWriter emptyWriter
        (runPipe defaultConfig (fun _ => none) [[s2n "a.txt"]] 0).1) []).1.tocLines =
      (runWriter emptyWriter
        (runPipe defaultConfig (fun _ => none) [[s2n "a.txt"]] 0).1).includedPaths.map
        (fun p => s2n "- " ++ keyOf p) :=
  (c8_document_order defaultConfig (fun _ => none) [[s2n "a.txt"]] []
    (by simp)).1

/-! ## Claim C3: determinism of the included-path list -/

instance : IsTotal (FPath × List Nat) candLe :=
  ⟨fun a b => le_total (keyOf a.1) (keyOf b.1)⟩

instance : IsTrans (FPath × List Nat) candLe :=
  ⟨fun _ _ _ hab hbc => le_trans hab hbc⟩

/-- Two sorted permutations of the same candidates with pairwise-distinct
keys coincide. -/
theorem sorted_perm_eq :
    ∀ (l₁ l₂ : List (FPath × List Nat)), l₁.Perm l₂ →
      l₁.Sorted candLe → l₂.Sorted candLe →
      (l₁.map (fun c => keyOf c.1)).Nodup → l₁ = l₂ := by
  intro l₁
  induction l₁ with
  | nil =>
    intro l₂ hp _ _ _
    exact (hp.symm.eq_nil).symm
  | cons a t ih =>
    intro l₂ hp hs₁ hs₂ hnd
    have ha : a ∈ l₂ := hp.subset (List.mem_cons_self a t)
    cases l₂ with
    | nil => exact absurd ha (List.not_mem_nil a)
    | cons b t₂ =>
      by_cases hab : a = b
      · subst hab
        have hp' := hp.cons_inv
        rw [List.map_cons] at hnd
        rw [ih t₂ hp' (List.sorted_cons.mp hs₁).2 (List.sorted_cons.mp hs₂).2
          (List.nodup_cons.mp hnd).2]
      · exfalso
        have hat2 : a ∈ t₂ := by
          rcases List.mem_cons.mp ha with h | h
          · exact absurd h hab
          · exact h
        have hbt : b ∈ t := by
          have hb : b ∈ a :: t := hp.symm.subset (List.mem_cons_self b t₂)
          rcases List.mem_cons.mp hb with h | h
          · exact absurd h.symm hab
          · exact h
        have h1 : candLe a b := (List.sorted_cons.mp hs₁).1 b hbt
        have h2 : candLe b a := (List.sorted_cons.mp hs₂).1 a hat2
        have hkey : keyOf a.1 = keyOf b.1 := le_antisymm h1 h2
        rw [List.map_cons] at hnd
        have hmem : keyOf b.1 ∈ t.map (fun c => keyOf c.1) :=
          List.mem_map_of_mem _ hbt
        exact (List.nodup_cons.mp hnd).1 (hkey ▸ hmem)

/-- The observable outcome of one run over a walker enumeration: sort the
candidates, drive the pipeline over the sorted paths, and report the
normalized relative paths of the Included results — the list that becomes
the table of contents. -/
def includedRelKeys (cfg : AppConfig) (fs : FileSys)
    (cands : List (FPath × List Nat)) : List (List Nat) :=
  (includedPathsOf (runPipe cfg fs ((sortCands cands).map Prod.fst) 0).1).map keyOf

/-- **C3 (amended).**  For a fixed tree, configuration and snapshot, the
ordered list of included relative paths is independent of the order in which
the walker enumerated the candidates — i.e. two successive runs agree —
*provided* the candidates' normalized relative-path keys are pairwise
distinct (true of every tree in which no file name contains a backslash). -/
theorem c3_determinism (cfg : AppConfig) (fs : FileSys)
    (cands₁ cands₂ : List (FPath × List Nat)) (hperm : cands₁.Perm cands₂)
    (hnd : (cands₁.map (fun c => keyOf c.1)).Nodup) :
    includedRelKeys cfg fs cands₁ = includedRelKeys cfg fs cands₂ := by
  suffices h : sortCands cands₁ = sortCands cands₂ by
    unfold includedRelKeys
    rw [h]
  apply sorted_perm_eq
  · exact (List.perm_insertionSort candLe cands₁).trans
      (hperm.trans (List.perm_insertionSort candLe cands₂).symm)
  · exact List.sorted_insertionSort candLe cands₁
  · exact List.sorted_insertionSort candLe cands₂
  · exact ((List.perm_insertionSort candLe cands₁).map
      (fun c => keyOf c.1)).nodup_iff.mpr hnd

/-- Witness for C3 (amended) on a two-candidate enumeration pair. -/
theorem c3_determinism_witness :
    includedRelKeys defaultConfig (fun _ => none)
        [([s2n "a.txt"], [97]), ([s2n "b.txt"], [98])] =
      includedRelKeys defaultConfig (fun _ => none)
        [([s2n "b.txt"], [98]), ([s2n "a.txt"], [97])] :=
  c3_determinism defaultConfig (fun _ => none)
    [([s2n "a.txt"], [97]), ([s2n "b.txt"], [98])]
    [([s2n "b.txt"], [98]), ([s2n "a.txt"], [97])]
    (List.Perm.swap _ _ _) (by decide)

/-- A file literally named `a\b` (one component, 92 = backslash) … -/
def tieX : FPath × List Nat := ([s2n "a\\b"], List.replicate 1048575 97)

/-- … and the file `b` inside directory `a`: distinct candidates with the
same cleaned key `a/b`. -/
def tieY : FPath × List Nat := ([s2n "a", s2n "b"], mibFile)

def tieZ : FPath × List Nat := ([s2n "z"], [97])

/-- One snapshot containing all three files. -/
def tieFs : FileSys := fun q =>
  if q = tieX.1 then some tieX.2
  else if q = tieY.1 then some tieY.2
  else if q = tieZ.1 then some tieZ.2 else none

theorem tie_key_eq : keyOf tieX.1 = keyOf tieY.1 := by decide

theorem tie_sortA : sortCands [tieX, tieY, tieZ] = [tieX, tieY, tieZ] := by
  have hYZ : candLe tieY tieZ := by decide
  have hXY : candLe tieX tieY := by decide
  have h1 : List.orderedInsert candLe tieY [tieZ] = [tieY, tieZ] := by
    unfold List.orderedInsert
    rw [if_pos hYZ]
  have h2 : List.orderedInsert candLe tieX [tieY, tieZ] = [tieX, tieY, tieZ] := by
    unfold List.orderedInsert
    rw [if_pos hXY]
  unfold sortCands
  simp only [List.insertionSort]
  rw [show List.orderedInsert candLe tieZ [] = [tieZ] from rfl, h1, h2]

theorem tie_sortB : sortCands [tieY, tieX, tieZ] = [tieY, tieX, tieZ] := by
  have hXZ : candLe tieX tieZ := by decide
  have hYX : candLe tieY tieX := by decide
  have h1 : List.orderedInsert candLe tieX [tieZ] = [tieX, tieZ] := by
    unfold List.orderedInsert
    rw [if_pos hXZ]
  have h2 : List.orderedInsert candLe tieY [tieX, tieZ] = [tieY, tieX, tieZ] := by
    unfold List.orderedInsert
    rw [if_pos hYX]
  unfold sortCands
  simp only [List.insertionSort]
  rw [show List.orderedInsert candLe tieZ [] = [tieZ] from rfl, h1, h2]

theorem tie_maxT : maxTotalBytes mibConfig = 1048576 := by
  norm_num [maxTotalBytes, satMul64, u64Max, mibConfig, defaultConfig]

theorem tie_runA :
    runPipe mibConfig tieFs [tieX.1, tieY.1, tieZ.1] 0 =
      ([.Included tieX.1 (List.replicate 1048575 97) 1048575,
        .Omitted tieY.1 (.budgetExceeded 1) 1048576,
        .Included tieZ.1 (List.replicate 1 97) 1], 1048576) := by
  have hl1 := List.length_replicate 1048575 97
  rw [runPipe_cons]
  have hfsX : tieFs tieX.1 = some (List.replicate 1048575 97) := rfl
  rw [hfsX]
  dsimp only
  rw [hl1]
  have hs0 : satAdd64 0 1048575 = 1048575 := by norm_num [satAdd64, u64Max]
  rw [hs0, tie_maxT, if_neg (by omega)]
  have hpfX : process_file mibConfig tieFs tieX.1 =
      .Included tieX.1 (List.replicate 1048575 97) 1048575 :=
    process_file_replicate97 mibConfig tieFs tieX.1 1048575 (by norm_num) rfl
      (by norm_num [maxFileBytes, satMul64, u64Max, mibConfig, defaultConfig]) rfl
  rw [hpfX]
  dsimp only
  rw [hs0]
  rw [runPipe_cons]
  have hfsY : tieFs tieY.1 = some mibFile := rfl
  rw [hfsY]
  dsimp only
  rw [mibFile_length]
  have hs1 : satAdd64 1048575 1048576 = 2097151 := by norm_num [satAdd64, u64Max]
  rw [hs1, tie_maxT, if_pos (by omega)]
  rw [runPipe_cons]
  have hfsZ : tieFs tieZ.1 = some [97] := rfl
  rw [hfsZ]
  dsimp only
  rw [show ([97] : List Nat).length = 1 from rfl]
  have hs2 : satAdd64 1048575 1 = 1048576 := by norm_num [satAdd64, u64Max]
  rw [hs2, tie_maxT, if_neg (by omega)]
  have hpfZ : process_file mibConfig tieFs tieZ.1 =
      .Included tieZ.1 (List.replicate 1 97) 1 :=
    process_file_replicate97 mibConfig tieFs tieZ.1 1 (by norm_num) rfl
      (by norm_num [maxFileBytes, satMul64, u64Max, mibConfig, defaultConfig]) rfl
  rw [hpfZ]
  dsimp only
  rw [show satAdd64 1048575 1 = 1048576 from hs2]
  rfl

theorem tie_runB :
    runPipe mibConfig tieFs [tieY.1, tieX.1, tieZ.1] 0 =
      ([.Included tieY.1 (List.replicate 1048576 97) 1048576,
        .Omitted tieX.1 (.budgetExceeded 1) 1048575,
        .Omitted tieZ.1 (.budgetExceeded 1) 1], 1048576) := by
  rw [runPipe_cons]
  have hfsY : tieFs tieY.1 = some mibFile := rfl
  rw [hfsY]
  dsimp only
  rw [mibFile_length]
  have hs0 : satAdd64 0 1048576 = 1048576 := by norm_num [satAdd64, u64Max]
  rw [hs0, tie_maxT, if_neg (by omega)]
  have hpfY : process_file mibConfig tieFs tieY.1 =
      .Included tieY.1 (List.replicate 1048576 97) 1048576 :=
    process_file_replicate97 mibConfig tieFs tieY.1 1048576 (by norm_num) rfl
      (by norm_num [maxFileBytes, satMul64, u64Max, mibConfig, defaultConfig]) rfl
  rw [hpfY]
  dsimp only
  rw [hs0]
  rw [runPipe_cons]
  have hfsX : tieFs tieX.1 = some (List.replicate 1048575 97) := rfl
  rw [hfsX]
  dsimp only
  rw [List.length_replicate 1048575 97]
  have hs1 : satAdd64 1048576 1048575 = 2097151 := by norm_num [satAdd64, u64Max]
  rw [hs1, tie_maxT, if_pos (by omega)]
  rw [runPipe_cons]
  have hfsZ : tieFs tieZ.1 = some [97] := rfl
  rw [hfsZ]
  dsimp only
  rw [show ([97] : List Nat).length = 1 from rfl]
  have hs2 : satAdd64 1048576 1 = 1048577 := by norm_num [satAdd64, u64Max]
  rw [hs2, tie_maxT, if_pos (by omega)]
  rfl

/-- **C3 counterexample.**  Two valid walker enumerations of the same tree —
a file literally named `a\b` and a file `b` inside directory `a` share the
cleaned key `a/b`, so the stable sort leaves them in enumeration order — give
different included-relative-path lists: the budget admits the small tied file
and then `z`, or the large tied file alone.  So the claim, read over the
walker's enumeration (which the tree and configuration do not determine),
fails without a distinct-keys proviso. -/
theorem c3_counterexample :
    ([tieX, tieY, tieZ] : List (FPath × List Nat)).Perm [tieY, tieX, tieZ] ∧
    keyOf tieX.1 = keyOf tieY.1 ∧
    includedRelKeys mibConfig tieFs [tieX, tieY, tieZ] ≠
      includedRelKeys mibConfig tieFs [tieY, tieX, tieZ] := by
  refine ⟨List.Perm.swap tieY tieX [tieZ], tie_key_eq, ?_⟩
  have hA : includedRelKeys mibConfig tieFs [tieX, tieY, tieZ] =
      [keyOf tieX.1, keyOf tieZ.1] := by
    unfold includedRelKeys
    rw [tie_sortA]
    rw [show ([tieX, tieY, tieZ] : List (FPath × List Nat)).map Prod.fst =
      [tieX.1, tieY.1, tieZ.1] from rfl]
    rw [tie_runA]
    rfl
  have hB : includedRelKeys mibConfig tieFs [tieY, tieX, tieZ] =
      [keyOf tieY.1] := by
    unfold includedRelKeys
    rw [tie_sortB]
    rw [show ([tieY, tieX, tieZ] : List (FPath × List Nat)).map Prod.fst =
      [tieY.1, tieX.1, tieZ.1] from rfl]
    rw [tie_runB]
    rfl
  rw [hA, hB]
  intro h
  have := congrArg List.length h
  simp at this

/-! ## Claim C6: the per-file exclusion chain -/

/-- Rule 1 of the spec's chain: snapshot-output name pattern or the tool's
own config file. -/
def rule1 (name : List Nat) : Bool :=
  matchesMergedRegex name || asciiLower name == s2n "ctxsnap.toml"

/-- Rule 2: recognized lock file, unless the toggle admits them. -/
def rule2 (cfg : AppConfig) (name : List Nat) : Bool :=
  !cfg.include_lockfiles && is_lockfile name

/-- Rule 3: configured excluded file name, case-insensitively. -/
def rule3 (cfg : AppConfig) (name : List Nat) : Bool :=
  (cfg.exclude_file.map asciiLower).contains (asciiLower name)

/-- Rule 4: secret-like dotted prefix, minus the example/sample/template and
`.envrc` escapes. -/
def rule4 (name : List Nat) : Bool :=
  (s2n ".env").isPrefixOf (asciiLower name)
    && !((s2n ".example").isSuffixOf (asciiLower name))
    && !((s2n ".sample").isSuffixOf (asciiLower name))
    && !((s2n ".template").isSuffixOf (asciiLower name))
    && asciiLower name != s2n ".envrc"

/-- Rule 5: configured excluded extension, case-insensitively. -/
def rule5 (cfg : AppConfig) (name : List Nat) : Bool :=
  match rust_extension name with
  | some ex => cfg.exclude_ext.any (fun e => asciiLower ex == asciiLower e)
  | none => false

/-- First-match-wins evaluation of an ordered rule list (every rule's action
being exclusion). -/
def firstMatch : List Bool → Bool
  | [] => false
  | r :: rest => if r then true else firstMatch rest

/-- The spec's description of the chain: the five rules in the fixed order,
first match wins. -/
def fileExcludedSpec (cfg : AppConfig) (name : List Nat) : Bool :=
  firstMatch [rule1 name, rule2 cfg name, rule3 cfg name, rule4 name,
    rule5 cfg name]

theorem fileExcluded_eq_spec (cfg : AppConfig) (name : List Nat) :
    fileExcluded cfg name = fileExcludedSpec cfg name := rfl

/-- A prefix witness from the boolean test. -/
theorem isPrefixOf_ex :
    ∀ {l₁ l₂ : List Nat}, l₁.isPrefixOf l₂ = true → ∃ t, l₂ = l₁ ++ t := by
  intro l₁
  induction l₁ with
  | nil => intro l₂ _; exact ⟨l₂, rfl⟩
  | cons a as ih =>
    intro l₂ h
    cases l₂ with
    | nil => simp [List.isPrefixOf] at h
    | cons b bs =>
      simp only [List.isPrefixOf, Bool.and_eq_true, beq_iff_eq] at h
      obtain ⟨rfl, h2⟩ := h
      obtain ⟨t, rfl⟩ := ih h2
      exact ⟨t, rfl⟩

/-- A suffix witness from the boolean test. -/
theorem isSuffixOf_ex {l₁ l₂ : List Nat} (h : l₁.isSuffixOf l₂ = true) :
    ∃ t, l₂ = t ++ l₁ := by
  unfold List.isSuffixOf at h
  obtain ⟨t, ht⟩ := isPrefixOf_ex h
  refine ⟨t.reverse, ?_⟩
  have := congrArg List.reverse ht
  simpa [List.reverse_append] using this

theorem lowerA_eq_dot {c : Nat} (h : lowerA c = 46) : c = 46 := by
  unfold lowerA at h
  split at h <;> omega

/-- The cleaned-name head of a `.env`-lowercased name is a literal dot. -/
theorem name_of_lower_dot {name rest : List Nat}
    (h : asciiLower name = 46 :: rest) :
    ∃ t, name = 46 :: t ∧ asciiLower t = rest := by
  cases name with
  | nil => simp [asciiLower] at h
  | cons c t =>
    simp only [asciiLower, List.map_cons, List.cons.injEq] at h
    exact ⟨t, by rw [lowerA_eq_dot h.1], h.2⟩

theorem matchesMergedRegex_dot (t : List Nat) :
    matchesMergedRegex (46 :: t) = false := by
  unfold matchesMergedRegex
  have h : ((46 :: t).take 7 == s2n "merged_") = false := by
    rw [show s2n "merged_" = [109, 101, 114, 103, 101, 100, 95] from by decide]
    rw [show (46 :: t).take 7 = 46 :: t.take 6 from rfl]
    rw [beq_eq_false_iff_ne]
    intro hcontra
    exact absurd (List.cons.inj hcontra).1 (by norm_num)
  rw [h]
  simp

theorem is_lockfile_dot (t : List Nat) : is_lockfile (46 :: t) = false := by
  by_contra hcon
  have h : is_lockfile (46 :: t) = true := by
    cases hx : is_lockfile (46 :: t)
    · exact absurd hx hcon
    · rfl
  have hmem : (46 :: t) ∈ lockfileNames :=
    List.elem_iff.mp (show List.elem _ _ = true from h)
  have hhead : ∀ l ∈ lockfileNames, l.head? ≠ some 46 := by decide
  exact hhead _ hmem rfl

theorem exclude_file_default_env (rest : List Nat) :
    (defaultConfig.exclude_file.map asciiLower).contains
      (46 :: 101 :: rest) = false := by
  by_contra hcon
  have h : (defaultConfig.exclude_file.map asciiLower).contains
      (46 :: 101 :: rest) = true := by
    cases hx : (defaultConfig.exclude_file.map asciiLower).contains (46 :: 101 :: rest)
    · exact absurd hx hcon
    · rfl
  have hmem := List.elem_iff.mp (show List.elem _ _ = true from h)
  have htwo : ∀ l ∈ defaultConfig.exclude_file.map asciiLower,
      l.take 2 ≠ [46, 101] := by decide
  exact htwo _ hmem rfl

/-- `Path::extension` of a name `pre ++ "." ++ s` whose final segment `s` has
no dot and whose stem part `pre` is non-empty: exactly `s`. -/
theorem rust_extension_append (pre s : List Nat) (hpre : pre ≠ [])
    (hs : ∀ c ∈ s, c ≠ 46) :
    rust_extension (pre ++ 46 :: s) = some s := by
  unfold rust_extension
  have hcontains : (pre ++ 46 :: s).contains 46 = true :=
    show List.elem _ _ = true from
      List.elem_iff.mpr (List.mem_append_right _ (List.mem_cons_self 46 s))
  rw [if_pos hcontains]
  have hrev : (pre ++ 46 :: s).reverse = s.reverse ++ 46 :: pre.reverse := by
    simp [List.reverse_append]
  rw [hrev]
  have htw : (s.reverse ++ 46 :: pre.reverse).takeWhile (fun c => c ≠ 46) =
      s.reverse := by
    rw [List.takeWhile_append]
    have hself : s.reverse.takeWhile (fun c => c ≠ 46) = s.reverse :=
      List.takeWhile_eq_self_iff.mpr (by
        intro x hx
        have := hs x (List.mem_reverse.mp hx)
        simpa using this)
    rw [hself]
    rw [if_pos rfl]
    rw [show (46 :: pre.reverse).takeWhile (fun c => c ≠ 46) = [] from by
      simp [List.takeWhile_cons]]
    simp
  rw [htw, List.reverse_reverse]
  rw [if_neg ?hlen]
  case hlen =>
    simp only [List.length_append, List.length_cons]
    intro hcontra
    have : pre.length = 0 := by omega
    exact hpre (List.length_eq_zero.mp this)

/-- `Path::extension` of a dotfile with no further dot: `None`. -/
theorem rust_extension_dotfile (t : List Nat) (ht : ∀ c ∈ t, c ≠ 46) :
    rust_extension (46 :: t) = none := by
  unfold rust_extension
  have hcontains : (46 :: t).contains 46 = true :=
    show List.elem _ _ = true from List.elem_iff.mpr (List.mem_cons_self 46 t)
  rw [if_pos hcontains]
  have hrev : (46 :: t).reverse = t.reverse ++ [46] := by simp
  rw [hrev]
  have htw : (t.reverse ++ [46]).takeWhile (fun c => c ≠ 46) = t.reverse := by
    rw [List.takeWhile_append]
    have hself : t.reverse.takeWhile (fun c => c ≠ 46) = t.reverse :=
      List.takeWhile_eq_self_iff.mpr (by
        intro x hx
        have := ht x (List.mem_reverse.mp hx)
        simpa using this)
    rw [hself]
    rw [if_pos rfl]
    simp [List.takeWhile_cons]
  rw [htw]
  rw [if_pos (by simp)]

/-- Common part for the allowlisted `.env*` names under the default
configuration: rules 1-3 never fire on a name whose lowercase starts with
`.env`. -/
theorem env_rules123_false (name restL : List Nat)
    (hlow : asciiLower name = 46 :: 101 :: 110 :: 118 :: restL) :
    rule1 name = false ∧ rule2 defaultConfig name = false ∧
    rule3 defaultConfig name = false := by
  obtain ⟨t, hname, -⟩ := name_of_lower_dot hlow
  refine ⟨?_, ?_, ?_⟩
  · unfold rule1
    rw [hname] at hlow ⊢
    rw [matchesMergedRegex_dot, hlow]
    rw [show s2n "ctxsnap.toml" =
      [99, 116, 120, 115, 110, 97, 112, 46, 116, 111, 109, 108] from by decide]
    rw [show ((46 :: 101 :: 110 :: 118 :: restL ==
        [99, 116, 120, 115, 110, 97, 112, 46, 116, 111, 109, 108]) : Bool) = false from
      beq_eq_false_iff_ne.mpr (by
        intro hc
        exact absurd (List.cons.inj hc).1 (by norm_num))]
    rfl
  · unfold rule2
    rw [hname, is_lockfile_dot]
    simp
  · unfold rule3
    rw [hlow]
    exact exclude_file_default_env _

/-- An allowlisted suffixed `.env*` name passes the whole default chain. -/
theorem env_suffix_included (name sufL code : List Nat)
    (hshape : sufL = 46 :: code) (hcode : ∀ v ∈ code, v ≠ 46)
    (hpre : (s2n ".env").isPrefixOf (asciiLower name) = true)
    (hsuf : sufL.isSuffixOf (asciiLower name) = true)
    (hnp : (s2n ".env").isPrefixOf sufL = false)
    (hext : ∀ e ∈ defaultConfig.exclude_ext, asciiLower e ≠ code)
    (h4 : rule4 name = false) :
    fileExcluded defaultConfig name = false := by
  obtain ⟨restL, hlow⟩ := isPrefixOf_ex hpre
  rw [show s2n ".env" = [46, 101, 110, 118] from by decide] at hlow
  simp only [List.cons_append, List.nil_append] at hlow
  obtain ⟨h1, h2, h3⟩ := env_rules123_false name restL hlow
  obtain ⟨tL, hsufEq⟩ := isSuffixOf_ex hsuf
  obtain ⟨pre, suf, hnamesplit, hpreMap, hsufMap⟩ :=
    List.map_eq_append_iff.mp (by rw [← hsufEq]; rfl :
      name.map lowerA = tL ++ sufL)
  have hsufMap' : suf.map lowerA = 46 :: code := by rw [hsufMap, hshape]
  obtain ⟨s7, hsufform, hs7map⟩ := name_of_lower_dot hsufMap'
  have hs7nodot : ∀ c ∈ s7, c ≠ 46 := by
    intro c hc hc46
    have hmem : lowerA c ∈ code := by
      rw [← hs7map]
      exact List.mem_map_of_mem _ hc
    have : lowerA c = 46 := by rw [hc46]; rfl
    exact hcode _ (this ▸ hmem) rfl
  have hprene : pre ≠ [] := by
    intro hnil
    rw [hnil, List.nil_append] at hnamesplit
    have : asciiLower name = sufL := by
      show name.map lowerA = sufL
      rw [hnamesplit, hsufMap]
    rw [this, hshape] at hpre
    rw [hshape] at hnp
    rw [hpre] at hnp
    exact Bool.noConfusion hnp
  have hextension : rust_extension name = some s7 := by
    rw [hnamesplit, hsufform]
    exact rust_extension_append pre s7 hprene hs7nodot
  have h5 : rule5 defaultConfig name = false := by
    unfold rule5
    rw [hextension]
    apply List.any_eq_false.mpr
    intro e he
    simp only [Bool.not_eq_true]
    rw [hs7map]
    exact beq_eq_false_iff_ne.mpr (fun hc => hext e he hc.symm)
  rw [fileExcluded_eq_spec]
  simp [fileExcludedSpec, firstMatch, h1, h2, h3, h4, h5]

/-- **C6.**  (1) The per-file exclusion of `find_files` is exactly the
five-rule chain in the fixed order — output-name pattern / own config file,
lock file unless admitted, configured file name, secret `.env` prefix with
its escapes, configured extension — with the first match winning.
(2) For every configuration, a name whose lowercase starts with `.env` and
carries none of the example/sample/template suffixes and is not `.envrc` is
excluded.  (3) Under the default configuration, the escaped variants
(`.example`/`.sample`/`.template` suffix, or `.envrc` itself) are
included. -/
theorem c6_exclusion_chain :
    (∀ (cfg : AppConfig) (name : List Nat),
       fileExcluded cfg name = fileExcludedSpec cfg name) ∧
    (∀ (cfg : AppConfig) (name : List Nat),
       (s2n ".env").isPrefixOf (asciiLower name) = true →
       (s2n ".example").isSuffixOf (asciiLower name) = false →
       (s2n ".sample").isSuffixOf (asciiLower name) = false →
       (s2n ".template").isSuffixOf (asciiLower name) = false →
       asciiLower name ≠ s2n ".envrc" →
       fileExcluded cfg name = true) ∧
    (∀ name : List Nat,
       (s2n ".env").isPrefixOf (asciiLower name) = true →
       ((s2n ".example").isSuffixOf (asciiLower name) = true ∨
        (s2n ".sample").isSuffixOf (asciiLower name) = true ∨
        (s2n ".template").isSuffixOf (asciiLower name) = true ∨
        asciiLower name = s2n ".envrc") →
       fileExcluded defaultConfig name = false) := by
  refine ⟨fun cfg name => fileExcluded_eq_spec cfg name, ?_, ?_⟩
  · intro cfg name hpre hex hsa hte henv
    have h4 : rule4 name = true := by
      unfold rule4
      rw [hpre, hex, hsa, hte]
      simp only [Bool.not_false, Bool.true_and, Bool.and_self, Bool.and_true]
      exact bne_iff_ne.mpr henv
    rw [fileExcluded_eq_spec]
    unfold fileExcludedSpec
    cases h1 : rule1 name <;> cases h2 : rule2 cfg name <;>
      cases h3 : rule3 cfg name <;> simp [firstMatch, h4]
  · intro name hpre hcase
    rcases hcase with hsuf | hsuf | hsuf | henvrc
    · refine env_suffix_included name (s2n ".example") (s2n "example")
        (by decide) (by decide) hpre hsuf (by decide) (by decide) ?_
      unfold rule4
      rw [hsuf]
      simp
    · refine env_suffix_included name (s2n ".sample") (s2n "sample")
        (by decide) (by decide) hpre hsuf (by decide) (by decide) ?_
      unfold rule4
      rw [hsuf]
      simp
    · refine env_suffix_included name (s2n ".template") (s2n "template")
        (by decide) (by decide) hpre hsuf (by decide) (by decide) ?_
      unfold rule4
      rw [hsuf]
      simp
    · have hlow : asciiLower name = 46 :: 101 :: 110 :: 118 :: [114, 99] := by
        rw [henvrc]
        decide
      obtain ⟨h1, h2, h3⟩ := env_rules123_false name [114, 99] hlow
      obtain ⟨t, hname, htmap⟩ := name_of_lower_dot hlow
      have htnodot : ∀ c ∈ t, c ≠ 46 := by
        intro c hc hc46
        have hmem : lowerA c ∈ [101, 110, 118, 114, 99] := by
          rw [← htmap]
          exact List.mem_map_of_mem _ hc
        have : lowerA c = 46 := by rw [hc46]; rfl
        rw [this] at hmem
        exact absurd hmem (by decide)
      have h5 : rule5 defaultConfig name = false := by
        unfold rule5
        rw [hname, rust_extension_dotfile t htnodot]
      have h4 : rule4 name = false := by
        unfold rule4
        rw [henvrc]
        simp [bne]
      rw [fileExcluded_eq_spec]
      simp [fileExcludedSpec, firstMatch, h1, h2, h3, h4, h5]

/-- Witness for C6: `.env` (any configuration in scope: the default) is
excluded; `.ENV.Example` and `.envrc` are included. -/
theorem c6_exclusion_chain_witness :
    fileExcluded defaultConfig (s2n ".env") = true ∧
    fileExcluded defaultConfig (s2n ".ENV.Example") = false ∧
    fileExcluded defaultConfig (s2n ".envrc") = false :=
  ⟨c6_exclusion_chain.2.1 defaultConfig (s2n ".env") (by decide) (by decide)
    (by decide) (by decide) (by decide),
   c6_exclusion_chain.2.2 (s2n ".ENV.Example") (by decide) (Or.inl (by decide)),
   c6_exclusion_chain.2.2 (s2n ".envrc") (by decide)
     (Or.inr (Or.inr (Or.inr (by decide))))⟩

/-- A pruned directory entry contributes nothing to the walk: the whole
subtree is skipped, leaving exactly the siblings' candidates. -/
theorem walkFiles_prune (cfg : AppConfig) (ign : FPath → Bool)
    (depth : Nat) (comps : List (List Nat)) (name : List Nat)
    (children rest : List FSEntry) (hp : pruneDirName cfg name = true) :
    walkFiles cfg ign depth comps (.dir name children :: rest) =
      walkFiles cfg ign depth comps rest := by
  rw [walkFiles.eq_def]
  dsimp only
  rw [hp]
  simp

/-- Every candidate of the walk lies strictly below `comps`, and each of the
directory components it descended through survived the pruning predicate. -/
theorem walkFiles_ancestors (cfg : AppConfig) (ign : FPath → Bool)
    (depth : Nat) (comps : List (List Nat)) (es : List FSEntry) :
    ∀ p c, (p, c) ∈ walkFiles cfg ign depth comps es →
      ∃ t, p = comps ++ t ∧ t ≠ [] ∧
        ∀ d ∈ t.dropLast, pruneDirName cfg d = false := by
  induction depth, comps, es using walkFiles.induct cfg ign with
  | case1 depth comps =>
    intro p c h
    rw [walkFiles.eq_def] at h
    simp at h
  | case2 depth comps e rest ih1 ih2 =>
    intro p c h
    rw [walkFiles.eq_def] at h
    dsimp only at h
    rw [List.mem_append] at h
    rcases h with h | h
    · cases e with
      | file name content =>
        dsimp only at h
        by_cases hc : (depth ≤ cfg.depth &&
            !(cfg.use_gitignore && ign (comps ++ [name]))) = true
        · rw [if_pos hc] at h
          rw [List.mem_singleton, Prod.mk.injEq] at h
          exact ⟨[name], h.1, by simp, by simp⟩
        · rw [if_neg hc] at h
          exact absurd h (List.not_mem_nil _)
      | symlink name =>
        dsimp only at h
        exact absurd h (List.not_mem_nil _)
      | dir name children =>
        dsimp only at h ih1
        by_cases hc : (depth ≤ cfg.depth && !pruneDirName cfg name &&
            !(cfg.use_gitignore && ign (comps ++ [name]))) = true
        · rw [if_pos hc] at h
          obtain ⟨t, hpt, htne, hall⟩ := ih1 p c h
          refine ⟨name :: t, by rw [hpt]; simp, by simp, ?_⟩
          have hdrop : (name :: t).dropLast = name :: t.dropLast := by
            cases t with
            | nil => exact absurd rfl htne
            | cons b tb => rfl
          rw [hdrop]
          intro d hd
          rcases List.mem_cons.mp hd with hd | hd
          · subst hd
            have hpr : (!pruneDirName cfg d) = true :=
              ((Bool.and_eq_true _ _).mp
                ((Bool.and_eq_true _ _).mp hc).1).2
            cases hb : pruneDirName cfg d with
            | false => rfl
            | true => rw [hb] at hpr; exact absurd hpr (by decide)
          · exact hall d hd
        · rw [if_neg hc] at h
          exact absurd h (List.not_mem_nil _)
    · exact ih2 p c h

/-- **C7.**  (1) A directory below the root whose name is pruned — matching a
configured exclusion or one of the fixed sensitive names, case-insensitively —
is skipped entirely and its subtree contributes no candidates.  (2) Every path
produced by `find_files` therefore has only unpruned intermediate directory
components.  (3) The fixed sensitive set fires under every configuration: no
configuration value can remove a name from it.  (4) The root directory's own
name never influences the result: the root is never pruned. -/
theorem c7_pruning :
    (∀ (cfg : AppConfig) (ign : FPath → Bool) (depth : Nat)
       (comps : List (List Nat)) (name : List Nat)
       (children rest : List FSEntry),
       pruneDirName cfg name = true →
       walkFiles cfg ign depth comps (.dir name children :: rest) =
         walkFiles cfg ign depth comps rest) ∧
    (∀ (cfg : AppConfig) (ign : FPath → Bool) (rootName : List Nat)
       (children : List FSEntry) (p : FPath) (c : List Nat),
       (p, c) ∈ find_files cfg ign (.dir rootName children) →
       ∀ d ∈ p.dropLast, pruneDirName cfg d = false) ∧
    (∀ (cfg : AppConfig) (name : List Nat),
       absoluteExcludeDirs.contains (asciiLower name) = true →
       pruneDirName cfg name = true) ∧
    (∀ (cfg : AppConfig) (ign : FPath → Bool) (n₁ n₂ : List Nat)
       (children : List FSEntry),
       find_files cfg ign (.dir n₁ children) =
         find_files cfg ign (.dir n₂ children)) := by
  refine ⟨walkFiles_prune, ?_, ?_, fun cfg ign n₁ n₂ children => rfl⟩
  · intro cfg ign rootName children p c h
    unfold find_files sortCands at h
    have h' : (p, c) ∈ (walkFiles cfg ign 1 [] children).filter
        (fun cand => !fileExcluded cfg (fileNameOf cand.1)) :=
      (List.perm_insertionSort candLe _).subset h
    have hw : (p, c) ∈ walkFiles cfg ign 1 [] children :=
      (List.mem_filter.mp h').1
    obtain ⟨t, hpt, -, hall⟩ := walkFiles_ancestors cfg ign 1 [] children p c hw
    rw [List.nil_append] at hpt
    rw [hpt]
    exact hall
  · intro cfg name habs
    show ((cfg.exclude_dir.map asciiLower).contains (asciiLower name) ||
      absoluteExcludeDirs.contains (asciiLower name)) = true
    rw [habs, Bool.or_true]

/-- Concrete evaluation of `find_files` on a two-level tree, for the C7
witness (the walk is defined by well-founded recursion, so it is evaluated
here by its equations rather than by kernel reduction). -/
theorem c7FindEval :
    find_files defaultConfig (fun _ => false)
      (FSEntry.dir (s2n "r")
        [FSEntry.dir (s2n "d") [FSEntry.file (s2n "b.txt") [97]]]) =
      [([s2n "d", s2n "b.txt"], [97])] := by
  have hb : walkFiles defaultConfig (fun _ => false) 2 [s2n "d"]
      [FSEntry.file (s2n "b.txt") [97]] = [([s2n "d", s2n "b.txt"], [97])] := by
    rw [walkFiles.eq_def]
    dsimp only
    rw [walkFiles.eq_def]
    rw [show defaultConfig.depth = 50 from rfl,
        show defaultConfig.use_gitignore = true from rfl]
    norm_num
  have hd : walkFiles defaultConfig (fun _ => false) 1 []
      [FSEntry.dir (s2n "d") [FSEntry.file (s2n "b.txt") [97]]] =
      [([s2n "d", s2n "b.txt"], [97])] := by
    rw [walkFiles.eq_def]
    dsimp only
    rw [show defaultConfig.depth = 50 from rfl,
        show defaultConfig.use_gitignore = true from rfl,
        show pruneDirName defaultConfig (s2n "d") = false from by decide]
    norm_num
    rw [hb, walkFiles.eq_def]
    dsimp only
    rw [List.append_nil]
  unfold find_files
  dsimp only
  rw [hd]
  rw [List.filter_cons_of_pos (by decide), List.filter_nil]
  rfl

/-- Witness for C7: a `.git` subtree is dropped under the default
configuration; `.SSH` is pruned though it is in no configured list; an
intermediate directory on a produced path is unpruned. -/
theorem c7_pruning_witness :
    walkFiles defaultConfig (fun _ => false) 1 []
        [FSEntry.dir (s2n ".git") [FSEntry.file (s2n "secret") [97]],
         FSEntry.file (s2n "a.txt") [97]] =
      walkFiles defaultConfig (fun _ => false) 1 []
        [FSEntry.file (s2n "a.txt") [97]] ∧
    pruneDirName defaultConfig (s2n ".SSH") = true ∧
    pruneDirName defaultConfig (s2n "d") = false :=
  ⟨c7_pruning.1 defaultConfig (fun _ => false) 1 [] (s2n ".git")
     [FSEntry.file (s2n "secret") [97]] [FSEntry.file (s2n "a.txt") [97]]
     (by decide),
   c7_pruning.2.2.1 defaultConfig (s2n ".SSH") (by decide),
   c7_pruning.2.1 defaultConfig (fun _ => false) (s2n "r")
     [FSEntry.dir (s2n "d") [FSEntry.file (s2n "b.txt") [97]]]
     [s2n "d", s2n "b.txt"] [97]
     (by rw [c7FindEval]; exact List.mem_singleton.mpr rfl)
     (s2n "d") (by decide)⟩

/-- `scanStr` on a clean literal body: the whole literal through its closing
quote is consumed unchanged. -/
theorem scanStr_clean (q : Nat) :
    ∀ (lit rest : List Nat), (∀ c ∈ lit, c ≠ q ∧ c ≠ 92) →
      scanStr q (lit ++ q :: rest) = some (lit ++ [q], rest) := by
  intro lit
  induction lit with
  | nil =>
    intro rest _
    rw [List.nil_append]
    cases rest with
    | nil =>
      rw [scanStr.eq_3, if_pos rfl]
      rfl
    | cons r0 r1 =>
      rw [scanStr.eq_2, if_pos rfl]
      rfl
  | cons a l ih =>
    intro rest h
    have ha := h a (List.mem_cons_self a l)
    have hex : ∃ b t2, l ++ q :: rest = b :: t2 := by
      cases l with
      | nil => exact ⟨q, rest, rfl⟩
      | cons x xs => exact ⟨x, xs ++ q :: rest, rfl⟩
    obtain ⟨b, t2, hbt⟩ := hex
    rw [List.cons_append, hbt, scanStr.eq_2, if_neg ha.1, if_neg ha.2, ← hbt,
        ih rest (fun c hc => h c (List.mem_cons_of_mem a hc))]
    rfl

/-- A character that opens no C-style alternative is copied. -/
theorem stripC_neutral (c : Nat) (h34 : c ≠ 34) (h39 : c ≠ 39) (h47 : c ≠ 47)
    (rest : List Nat) : stripC (c :: rest) = c :: stripC rest := by
  rw [stripC.eq_def]
  split
  all_goals simp_all

/-- A character that opens no Hash-style alternative is copied. -/
theorem stripHash_neutral (c : Nat) (h34 : c ≠ 34) (h39 : c ≠ 39)
    (h35 : c ≠ 35) (rest : List Nat) :
    stripHash (c :: rest) = c :: stripHash rest := by
  rw [stripHash.eq_def]
  split
  all_goals simp_all

/-- A character that opens no Dash-style alternative is copied. -/
theorem stripDash_neutral (c : Nat) (h34 : c ≠ 34) (h39 : c ≠ 39)
    (h45 : c ≠ 45) (rest : List Nat) :
    stripDash (c :: rest) = c :: stripDash rest := by
  rw [stripDash.eq_def]
  split
  all_goals simp_all

/-- A block of C-neutral characters is copied verbatim. -/
theorem stripC_copies (pre : List Nat)
    (h : ∀ c ∈ pre, c ≠ 34 ∧ c ≠ 39 ∧ c ≠ 47) (rest : List Nat) :
    stripC (pre ++ rest) = pre ++ stripC rest := by
  induction pre with
  | nil => rfl
  | cons a l ih =>
    have ha := h a (List.mem_cons_self a l)
    rw [List.cons_append,
        stripC_neutral a ha.1 ha.2.1 ha.2.2 (l ++ rest),
        ih (fun c hc => h c (List.mem_cons_of_mem a hc))]
    rfl

/-- A block of Hash-neutral characters is copied verbatim. -/
theorem stripHash_copies (pre : List Nat)
    (h : ∀ c ∈ pre, c ≠ 34 ∧ c ≠ 39 ∧ c ≠ 35) (rest : List Nat) :
    stripHash (pre ++ rest) = pre ++ stripHash rest := by
  induction pre with
  | nil => rfl
  | cons a l ih =>
    have ha := h a (List.mem_cons_self a l)
    rw [List.cons_append,
        stripHash_neutral a ha.1 ha.2.1 ha.2.2 (l ++ rest),
        ih (fun c hc => h c (List.mem_cons_of_mem a hc))]
    rfl

/-- A double-quoted literal at the head of a C-style input survives intact:
the scan consumes it via the string alternative, comment markers inside
included. -/
theorem stripC_string (lit rest : List Nat)
    (h : ∀ c ∈ lit, c ≠ 34 ∧ c ≠ 92) :
    stripC (34 :: (lit ++ 34 :: rest)) = 34 :: lit ++ 34 :: stripC rest := by
  rw [stripC.eq_def]
  dsimp only
  split
  · next b r heq =>
    rw [scanStr_clean 34 lit rest h] at heq
    obtain ⟨hb, hr⟩ := Prod.mk.inj (Option.some.inj heq)
    rw [← hb, ← hr]
    simp
  · next heq =>
    rw [scanStr_clean 34 lit rest h] at heq
    cases heq

/-- Same for the Hash style. -/
theorem stripHash_string (lit rest : List Nat)
    (h : ∀ c ∈ lit, c ≠ 34 ∧ c ≠ 92) :
    stripHash (34 :: (lit ++ 34 :: rest)) =
      34 :: lit ++ 34 :: stripHash rest := by
  rw [stripHash.eq_def]
  dsimp only
  split
  · next b r heq =>
    rw [scanStr_clean 34 lit rest h] at heq
    obtain ⟨hb, hr⟩ := Prod.mk.inj (Option.some.inj heq)
    rw [← hb, ← hr]
    simp
  · next heq =>
    rw [scanStr_clean 34 lit rest h] at heq
    cases heq

/-- Same for the Dash style. -/
theorem stripDash_string (lit rest : List Nat)
    (h : ∀ c ∈ lit, c ≠ 34 ∧ c ≠ 92) :
    stripDash (34 :: (lit ++ 34 :: rest)) =
      34 :: lit ++ 34 :: stripDash rest := by
  rw [stripDash.eq_def]
  dsimp only
  split
  · next b r heq =>
    rw [scanStr_clean 34 lit rest h] at heq
    obtain ⟨hb, hr⟩ := Prod.mk.inj (Option.some.inj heq)
    rw [← hb, ← hr]
    simp
  · next heq =>
    rw [scanStr_clean 34 lit rest h] at heq
    cases heq

/-- **C9.**  (1) Dispatch: an extension mapped to no style returns the content
unchanged, and representative extensions reach their scanners.  (2) In the
three string-aware styles (C-like, Hash, Dash) a double-quoted literal free of
inner quotes and escapes is preserved intact, comment markers inside it
included.  (3) A `#`-prefixed line is preserved verbatim in a C-like file and
a `//` token is preserved verbatim in a Hash-style file.  (The claim's
universal string protection does not extend to the XML style, whose regex has
no string alternative: see the counterexample.) -/
theorem c9_comment_stripping :
    (∀ content ext, styleFor (asciiLower ext) = Style.noStyle →
       strip_comments content ext = content) ∧
    (∀ content : List Nat,
       strip_comments content (s2n "rs") = stripC content ∧
       strip_comments content (s2n "py") = stripHash content ∧
       strip_comments content (s2n "sql") = stripDash content ∧
       strip_comments content (s2n "html") = stripXml content ∧
       strip_comments content (s2n "txt") = content) ∧
    (∀ lit rest : List Nat, (∀ c ∈ lit, c ≠ 34 ∧ c ≠ 92) →
       stripC (34 :: (lit ++ 34 :: rest)) = 34 :: lit ++ 34 :: stripC rest ∧
       stripHash (34 :: (lit ++ 34 :: rest)) =
         34 :: lit ++ 34 :: stripHash rest ∧
       stripDash (34 :: (lit ++ 34 :: rest)) =
         34 :: lit ++ 34 :: stripDash rest) ∧
    (∀ body rest : List Nat, (∀ c ∈ body, c ≠ 34 ∧ c ≠ 39 ∧ c ≠ 47) →
       stripC ((35 :: body) ++ rest) = (35 :: body) ++ stripC rest) ∧
    (∀ body rest : List Nat, (∀ c ∈ body, c ≠ 34 ∧ c ≠ 39 ∧ c ≠ 35) →
       stripHash ((47 :: 47 :: body) ++ rest) =
         (47 :: 47 :: body) ++ stripHash rest) := by
  refine ⟨?_, ?_, ?_, ?_, ?_⟩
  · intro content ext hsty
    unfold strip_comments
    rw [hsty]
  · intro content
    exact ⟨rfl, rfl, rfl, rfl, rfl⟩
  · intro lit rest h
    exact ⟨stripC_string lit rest h, stripHash_string lit rest h,
      stripDash_string lit rest h⟩
  · intro body rest h
    apply stripC_copies
    intro c hc
    rcases List.mem_cons.mp hc with hc | hc
    · subst hc; exact ⟨by decide, by decide, by decide⟩
    · exact h c hc
  · intro body rest h
    apply stripHash_copies
    intro c hc
    rcases List.mem_cons.mp hc with hc | hc
    · subst hc; exact ⟨by decide, by decide, by decide⟩
    · rcases List.mem_cons.mp hc with hc | hc
      · subst hc; exact ⟨by decide, by decide, by decide⟩
      · exact h c hc

/-- Witness for C9: a `//` inside a C string survives; a `#`-decorator line
survives in a C-like file; a `//` integer division survives in a Hash file;
an unmapped extension passes content through. -/
theorem c9_comment_stripping_witness :
    stripC (34 :: (s2n "//x" ++ 34 :: [])) =
      34 :: s2n "//x" ++ 34 :: stripC [] ∧
    stripC ((35 :: s2n "[derive(Debug)]") ++ [10]) =
      (35 :: s2n "[derive(Debug)]") ++ stripC [10] ∧
    stripHash ((47 :: 47 :: s2n " 2") ++ []) =
      (47 :: 47 :: s2n " 2") ++ stripHash [] ∧
    strip_comments (s2n "hello") (s2n "md") = s2n "hello" :=
  ⟨(c9_comment_stripping.2.2.1 (s2n "//x") [] (by decide)).1,
   c9_comment_stripping.2.2.2.1 (s2n "[derive(Debug)]") [10] (by decide),
   c9_comment_stripping.2.2.2.2 (s2n " 2") [] (by decide),
   c9_comment_stripping.1 (s2n "hello") (s2n "md") (by decide)⟩

/-- Counterexample to C9's universal string protection: the XML-style regex
has no string-literal alternative, so a comment-shaped substring inside a
double-quoted literal is removed in an XML-like file, while the C-like style
preserves the very same content. -/
theorem c9_counterexample :
    strip_comments (s2n "\x22<!--x-->\x22") (s2n "html") = [34, 34] ∧
    strip_comments (s2n "\x22<!--x-->\x22") (s2n "js") =
      s2n "\x22<!--x-->\x22" := by
  constructor
  · show stripXml (s2n "\x22<!--x-->\x22") = [34, 34]
    rw [show s2n "\x22<!--x-->\x22" =
      [34, 60, 33, 45, 45, 120, 45, 45, 62, 34] from by decide]
    rw [stripXml.eq_def]
    dsimp only
    rw [stripXml.eq_def]
    dsimp only [findXmlEnd]
    rw [stripXml.eq_def]
    dsimp only
    rw [stripXml.eq_def]
  · show stripC (s2n "\x22<!--x-->\x22") = s2n "\x22<!--x-->\x22"
    rw [show s2n "\x22<!--x-->\x22" =
      34 :: ([60, 33, 45, 45, 120, 45, 45, 62] ++ 34 :: []) from by decide]
    rw [stripC_string [60, 33, 45, 45, 120, 45, 45, 62] [] (by decide)]
    rw [stripC.eq_def]
    dsimp only
    decide

end Ctxsnap
